import Mathlib

/-!
search-prompter: the prompt candidate engine, the UI update step and the readiness handshake

A shallow embedding of `internal/app/app.go` and `cmd/app/main.go`.

* A Go `string` is a sequence of bytes: `GoString := List Nat`, one number per byte.
* What the program takes from outside is a parameter: the fields of `Env` (the spelling oracle
  `spellcheck.Suggest`, the answer of the remote service, the non-ASCII branch of
  `strings.ToLower`, the pseudo-random step used inside `sort.Slice`, and the two indexes built
  at start-up) and the text-input widget `TextInput`.
* `sort.Slice` is embedded as the Go library implements it since Go 1.19: the
  pattern-defeating quicksort `pdqsort_func` with its insertion sort, heap sort, pivot choice
  and partition functions. What it returns is proved to be a sorted permutation of its input
  for every comparison that is a strict weak order.
* `prompter` returns the requests it made to the remote client next to its result, so that
  what was asked of the remote service is a statement about the embedding.
* A run-time panic and a `log.Fatal` exit are values of `Fault`.
* Start-up is a transition system over `main`, the ticker and the `Ping` goroutines, one
  `Event` per scheduling step; time itself (the 5 second period, the request time-out) is not
  represented.
-/

namespace SearchPrompter

/-! ## Strings -/

/-- A Go string: its bytes in order. -/
abbrev GoString := List Nat

/-- The bytes of a literal written in ASCII (there the code points are the bytes). -/
def ascii (s : String) : GoString := s.toList.map Char.toNat

/-- The space byte, the separator used throughout. -/
def space : Nat := 32

/-- The byte test of `strip`: `('a' <= b && b <= 'z') || ('0' <= b && b <= '9') || b == ' '`. -/
def keep (b : Nat) : Bool :=
  (97 ≤ b && b ≤ 122) || (48 ≤ b && b ≤ 57) || b == 32

/-- The loop of `strip`, `for i := 0; i < len(s); i++`, over the bytes still to visit, with the
`strings.Builder` content as accumulator. -/
def stripLoop : GoString → GoString → GoString
  | [], result => result
  | b :: rest, result => if keep b then stripLoop rest (result ++ [b]) else stripLoop rest result

/-- Go `strip`: copies the bytes passing `keep` into a fresh builder. -/
def strip (s : GoString) : GoString := stripLoop s []

/-- The first loop of `strings.ToLower`: is every byte below `utf8.RuneSelf` (0x80)? -/
def isASCII (s : GoString) : Bool := s.all (fun c => decide (c < 128))

/-- The `hasUpper` flag of `strings.ToLower`: is some byte in `'A'..'Z'`? -/
def hasUpper (s : GoString) : Bool := s.any (fun c => 65 ≤ c && c ≤ 90)

/-- The byte step of the ASCII branch of `strings.ToLower`: `c += 'a' - 'A'` on `'A'..'Z'`. -/
def lowerByte (c : Nat) : Nat := if 65 ≤ c && c ≤ 90 then c + 32 else c

/-- Go `strings.ToLower`. An all-ASCII string is returned unchanged when it has no upper-case
letter and byte-wise lowered otherwise; a string with a byte from 0x80 up goes through
`Map(unicode.ToLower, s)`, which is the parameter `unicodeLower`. -/
def ToLower (unicodeLower : GoString → GoString) (s : GoString) : GoString :=
  if isASCII s then
    if !hasUpper s then s else s.map lowerByte
  else unicodeLower s

/-- The normalizer as `prompter` and `init` apply it: `strip(strings.ToLower(s))`. -/
def normalize (unicodeLower : GoString → GoString) (s : GoString) : GoString :=
  strip (ToLower unicodeLower s)

/-- Go `strings.Split(s, " ")`: the scan for the next separator, over the bytes still to visit,
with the bytes of the token being read as accumulator. A separator closes the token, the end of
the string closes the last one, so the result is never empty. -/
def splitLoop : GoString → GoString → List GoString
  | [], cur => [cur]
  | b :: rest, cur => if b = space then cur :: splitLoop rest [] else splitLoop rest (cur ++ [b])

/-- Go `strings.Split(s, " ")`. -/
def Split (s : GoString) : List GoString := splitLoop s []

/-- Go `a < b` on strings: byte-wise lexicographic, a proper initial segment being smaller. -/
def strLess : GoString → GoString → Bool
  | [], [] => false
  | [], _ :: _ => true
  | _ :: _, [] => false
  | a :: as, b :: bs => if a < b then true else if b < a then false else strLess as bs

/-! ## Maps, slices and the environment -/

/-- A Go map keyed by strings; `none` is an absent key. -/
abbrev GoMap (V : Type) := GoString → Option V

/-- Go `m[k]` on a `map[string]string`: the zero value `""` for an absent key. -/
def GoMap.index (m : GoMap GoString) (k : GoString) : GoString := (m k).getD []

/-- What the program takes from outside its own source. -/
structure Env where
  /-- `Map(unicode.ToLower, s)`, the branch of `strings.ToLower` for non-ASCII strings. -/
  unicodeLower : GoString → GoString
  /-- The global `words`, built by `init`. -/
  words : GoMap Int
  /-- The global `ratings`, built by `init`. -/
  ratings : GoMap GoString
  /-- The oracle `spellcheck.Suggest(w, words)`. -/
  Suggest : GoString → GoMap Int → GoString
  /-- The `items` decoded from the remote service's answer to `GET /q?query=q&n=n`;
  `none` when the request or the decoding fails. -/
  respond : GoString → Int → Option (List GoString)
  /-- The step `xorshift.Next` of the pseudo-random generator inside `sort.Slice`. -/
  xorshift : Nat → Nat

/-- A Go `[]string` as far as `prompter` looks at it: elements and capacity. -/
structure Slice where
  data : List GoString
  cap : Nat

/-- Go `make([]string, 0, c)`. -/
def make (c : Nat) : Slice := ⟨[], c⟩

/-- Go `append(s, xs...)`: the capacity stays while the elements fit; beyond it the runtime
allocates a larger array (modelled as doubling, at least the new length; `prompter` never reads
a capacity after growth). -/
def Slice.append (s : Slice) (xs : List GoString) : Slice :=
  ⟨s.data ++ xs,
   if s.data.length + xs.length ≤ s.cap then s.cap else max (2 * s.cap) (s.data.length + xs.length)⟩

/-! ## sort.Slice -/

/-- Go `data.Less(i, j)` of a `lessSwap`: the comparison of the elements now at `i` and `j`. -/
def lessAt {α : Type} (less : α → α → Bool) (data : List α) (i j : Nat) : Bool :=
  match data[i]?, data[j]? with
  | some x, some y => less x y
  | _, _ => false

/-- Go `data.Swap(i, j)` of a `lessSwap`. -/
def swapAt {α : Type} (data : List α) (i j : Nat) : List α :=
  match data[i]?, data[j]? with
  | some x, some y => (data.set i y).set j x
  | _, _ => data

/-- The inner loop of Go `insertionSort_func`,
`for j := i; j > a && less(j, j-1); j-- { swap(j, j-1) }`: the element `x = data[i]` moves left
past every neighbour it is `less` than. The sorted part `data[a:i]` is held right to left
(nearest neighbour first). -/
def sinkLeft {α : Type} (less : α → α → Bool) (x : α) : List α → List α
  | [] => [x]
  | y :: ys => if less x y then y :: sinkLeft less x ys else x :: y :: ys

/-- Go `insertionSort_func` on a whole slice: the outer loop `for i := a + 1; i < b; i++`. -/
def insertionSort_func {α : Type} (less : α → α → Bool) (xs : List α) : List α :=
  (xs.foldl (fun sorted x => sinkLeft less x sorted) []).reverse

/-- Go `insertionSort_func(data, a, b)`: the insertion sort of the sub-slice `data[a:b]`,
the rest of `data` untouched. -/
def insertionSortRange {α : Type} (less : α → α → Bool) (data : List α) (a b : Nat) : List α :=
  data.take a ++ insertionSort_func less ((data.drop a).take (b - a)) ++ data.drop b

/-- The loop of Go `siftDown_func`, from `root` on; the first argument bounds the number of
rounds (`root` grows in each, and the loop ends once `2*root+1 >= hi`). -/
def siftDownLoop {α : Type} (less : α → α → Bool) (hi first : Nat) :
    Nat → Nat → List α → List α
  | 0, _, data => data
  | fuel + 1, root, data =>
    if 2 * root + 1 ≥ hi then data
    else
      let child :=
        if 2 * root + 2 < hi && lessAt less data (first + (2 * root + 1)) (first + (2 * root + 2))
        then 2 * root + 2 else 2 * root + 1
      if !lessAt less data (first + root) (first + child) then data
      else siftDownLoop less hi first fuel child (swapAt data (first + root) (first + child))

/-- Go `siftDown_func(data, lo, hi, first)`. -/
def siftDown_func {α : Type} (less : α → α → Bool) (data : List α) (lo hi first : Nat) :
    List α :=
  siftDownLoop less hi first hi lo data

/-- The first loop of Go `heapSort_func`, `for i := (hi - 1) / 2; i >= 0; i--`; the counter
is `i + 1`. -/
def heapBuild {α : Type} (less : α → α → Bool) (hi first : Nat) : Nat → List α → List α
  | 0, data => data
  | i + 1, data => heapBuild less hi first i (siftDown_func less data i hi first)

/-- The second loop of Go `heapSort_func`, `for i := hi - 1; i >= 0; i--`; the counter is
`i + 1`. -/
def heapPop {α : Type} (less : α → α → Bool) (first : Nat) : Nat → List α → List α
  | 0, data => data
  | i + 1, data =>
    heapPop less first i (siftDown_func less (swapAt data first (first + i)) 0 i first)

/-- Go `heapSort_func(data, a, b)`. -/
def heapSort_func {α : Type} (less : α → α → Bool) (data : List α) (a b : Nat) : List α :=
  heapPop less a (b - a) (heapBuild less (b - a) a ((b - a - 1) / 2 + 1) data)

/-- Go `for i <= j && p(i) { i++ }`: the index the loop stops at; the first argument bounds the
number of rounds. -/
def scanUp (p : Nat → Bool) (j : Nat) : Nat → Nat → Nat
  | 0, i => i
  | fuel + 1, i => if i ≤ j && p i then scanUp p j fuel (i + 1) else i

/-- Go `for i <= j && p(j) { j-- }`: the index the loop stops at; the first argument bounds the
number of rounds. -/
def scanDown (p : Nat → Bool) (i : Nat) : Nat → Nat → Nat
  | 0, j => j
  | fuel + 1, j => if i ≤ j && p j then scanDown p i fuel (j - 1) else j

/-- The `for` loop of Go `partition_func` after the first swap: scan up, scan down, break or
swap and step inwards. Returns the data and the final `j`. -/
def partitionLoop {α : Type} (less : α → α → Bool) (a : Nat) :
    Nat → List α → Nat → Nat → List α × Nat
  | 0, data, _, j => (data, j)
  | fuel + 1, data, i, j =>
    let i := scanUp (fun k => lessAt less data k a) j (j + 1 - i) i
    let j := scanDown (fun k => !lessAt less data k a) i (j + 1 - i) j
    if i > j then (data, j)
    else partitionLoop less a fuel (swapAt data i j) (i + 1) (j - 1)

/-- Go `partition_func(data, a, b, pivot)`: returns the data, the new pivot index and
whether the slice was already partitioned. -/
def partition_func {α : Type} (less : α → α → Bool) (data : List α) (a b pivot : Nat) :
    List α × Nat × Bool :=
  let data := swapAt data a pivot
  let i := scanUp (fun k => lessAt less data k a) (b - 1) (b - a) (a + 1)
  let j := scanDown (fun k => !lessAt less data k a) i (b - a) (b - 1)
  if i > j then (swapAt data j a, j, true)
  else
    let r := partitionLoop less a (b - a) (swapAt data i j) (i + 1) (j - 1)
    (swapAt r.1 r.2 a, r.2, false)

/-- The `for` loop of Go `partitionEqual_func`. Returns the data and the final `i`. -/
def partitionEqualLoop {α : Type} (less : α → α → Bool) (a : Nat) :
    Nat → List α → Nat → Nat → List α × Nat
  | 0, data, i, _ => (data, i)
  | fuel + 1, data, i, j =>
    let i := scanUp (fun k => !lessAt less data a k) j (j + 1 - i) i
    let j := scanDown (fun k => lessAt less data a k) i (j + 1 - i) j
    if i > j then (data, i)
    else partitionEqualLoop less a fuel (swapAt data i j) (i + 1) (j - 1)

/-- Go `partitionEqual_func(data, a, b, pivot)`. -/
def partitionEqual_func {α : Type} (less : α → α → Bool) (data : List α) (a b pivot : Nat) :
    List α × Nat :=
  partitionEqualLoop less a (b - a + 1) (swapAt data a pivot) (a + 1) (b - 1)

/-- The scan `for i < b && !less(data[i], data[i-1]) { i++ }` of Go
`partialInsertionSort_func`. -/
def scanSorted {α : Type} (less : α → α → Bool) (data : List α) (b : Nat) : Nat → Nat → Nat
  | 0, i => i
  | fuel + 1, i =>
    if i < b && !lessAt less data i (i - 1) then scanSorted less data b fuel (i + 1) else i

/-- The loop `for j := i - 1; j >= 1; j--` of Go `partialInsertionSort_func`, which shifts
the smaller element to the left; the counter is `j`. -/
def shiftLeft {α : Type} (less : α → α → Bool) : Nat → List α → List α
  | 0, data => data
  | j + 1, data =>
    if !lessAt less data (j + 1) j then data else shiftLeft less j (swapAt data (j + 1) j)

/-- The loop `for j := i + 1; j < b; j++` of Go `partialInsertionSort_func`, which shifts
the greater element to the right. -/
def shiftRight {α : Type} (less : α → α → Bool) (b : Nat) : Nat → Nat → List α → List α
  | 0, _, data => data
  | fuel + 1, j, data =>
    if j < b then
      if !lessAt less data j (j - 1) then data
      else shiftRight less b fuel (j + 1) (swapAt data j (j - 1))
    else data

/-- The loop `for j := 0; j < maxSteps; j++` of Go `partialInsertionSort_func`; the counter
is the number of steps left. -/
def partialInsertionLoop {α : Type} (less : α → α → Bool) (a b : Nat) :
    Nat → Nat → List α → List α × Bool
  | 0, _, data => (data, false)
  | steps + 1, i, data =>
    let i := scanSorted less data b (b - i) i
    if i = b then (data, true)
    else if b - a < 50 then (data, false)
    else
      let data := swapAt data i (i - 1)
      let data := if i - a ≥ 2 then shiftLeft less (i - 1) data else data
      let data := if b - i ≥ 2 then shiftRight less b (b - i) (i + 1) data else data
      partialInsertionLoop less a b steps i data

/-- Go `partialInsertionSort_func(data, a, b)` (`maxSteps = 5`, `shortestShifting = 50`). -/
def partialInsertionSort_func {α : Type} (less : α → α → Bool) (data : List α) (a b : Nat) :
    List α × Bool :=
  partialInsertionLoop less a b 5 (a + 1) data

/-- Go `bits.Len(uint(n))`: the number of bits of `n`; the first argument bounds the number of
halvings. -/
def bitsLenLoop : Nat → Nat → Nat
  | 0, _ => 0
  | fuel + 1, n => if n = 0 then 0 else bitsLenLoop fuel (n / 2) + 1

/-- Go `bits.Len(uint(n))`. -/
def bitsLen (n : Nat) : Nat := bitsLenLoop n n

/-- The loop `for i := 0; i < 3; i++` of Go `breakPatterns_func`; the counter is the number
of rounds left. `next` is `xorshift.Next`, the step of the pseudo-random generator (the new
state, which is also the value drawn). -/
def breakPatternsLoop {α : Type} (next : Nat → Nat) (a length idx : Nat) :
    Nat → Nat → Nat → List α → List α
  | 0, _, _, data => data
  | rounds + 1, i, random, data =>
    let random := next random
    let other := random &&& (2 ^ bitsLen length - 1)
    let other := if other ≥ length then other - length else other
    breakPatternsLoop next a length idx rounds (i + 1) random
      (swapAt data (idx - 1 + i) (a + other))

/-- Go `breakPatterns_func(data, a, b)`: `random := xorshift(length)`,
`modulus := nextPowerOfTwo(length)`, three swaps around the middle. -/
def breakPatterns_func {α : Type} (next : Nat → Nat) (data : List α) (a b : Nat) : List α :=
  if b - a ≥ 8 then
    breakPatternsLoop next a (b - a) (a + (b - a) / 4 * 2 - 1) 3 0 (b - a) data
  else data

/-- The `sortedHint` of package `sort`. -/
inductive sortedHint
  | unknownHint
  | increasingHint
  | decreasingHint
  deriving DecidableEq, Repr

/-- Go `order2_func(data, a, b, swaps)`: the two indices in order, and the swap count. -/
def order2_func {α : Type} (less : α → α → Bool) (data : List α) (a b swaps : Nat) :
    Nat × Nat × Nat :=
  if lessAt less data b a then (b, a, swaps + 1) else (a, b, swaps)

/-- Go `median_func(data, a, b, c, swaps)`: the index of the median, and the swap count. -/
def median_func {α : Type} (less : α → α → Bool) (data : List α) (a b c swaps : Nat) :
    Nat × Nat :=
  let r1 := order2_func less data a b swaps
  let r2 := order2_func less data r1.2.1 c r1.2.2
  let r3 := order2_func less data r1.1 r2.1 r2.2.2
  (r3.2.1, r3.2.2)

/-- Go `medianAdjacent_func(data, a, swaps)`. -/
def medianAdjacent_func {α : Type} (less : α → α → Bool) (data : List α) (a swaps : Nat) :
    Nat × Nat :=
  median_func less data (a - 1) a (a + 1) swaps

/-- The index and the swap count that Go `choosePivot_func(data, a, b)` ends with
(`shortestNinther = 50`). -/
def choosePivotIndex {α : Type} (less : α → α → Bool) (data : List α) (a b : Nat) : Nat × Nat :=
  let l := b - a
  let i := a + l / 4 * 1
  let j := a + l / 4 * 2
  let k := a + l / 4 * 3
  if l ≥ 8 then
    if l ≥ 50 then
      let ri := medianAdjacent_func less data i 0
      let rj := medianAdjacent_func less data j ri.2
      let rk := medianAdjacent_func less data k rj.2
      median_func less data ri.1 rj.1 rk.1 rk.2
    else median_func less data i j k 0
  else (j, 0)

/-- Go `choosePivot_func(data, a, b)`: the pivot index and the hint from the swap count
(`maxSwaps = 12`). -/
def choosePivot_func {α : Type} (less : α → α → Bool) (data : List α) (a b : Nat) :
    Nat × sortedHint :=
  let r := choosePivotIndex less data a b
  if r.2 = 0 then (r.1, sortedHint.increasingHint)
  else if r.2 = 12 then (r.1, sortedHint.decreasingHint)
  else (r.1, sortedHint.unknownHint)

/-- The loop of Go `reverseRange_func`; the first argument bounds the number of rounds. -/
def reverseRangeLoop {α : Type} : Nat → Nat → Nat → List α → List α
  | 0, _, _, data => data
  | fuel + 1, i, j, data =>
    if i < j then reverseRangeLoop fuel (i + 1) (j - 1) (swapAt data i j) else data

/-- Go `reverseRange_func(data, a, b)`. -/
def reverseRange_func {α : Type} (data : List α) (a b : Nat) : List α :=
  reverseRangeLoop (b - a) a (b - 1) data

/-- A round of Go `pdqsort_func` up to the partitioning: the data, the pivot index, the
limit, and whether the partial insertion sort has finished the job. -/
structure PdqRound (α : Type) where
  data : List α
  pivot : Nat
  limit : Nat
  sorted : Bool

/-- A round of the `for` loop of Go `pdqsort_func` from `if !wasBalanced` up to the
partitioning: `breakPatterns`, `choosePivot`, the reversal on `decreasingHint`, and the partial
insertion sort when the slice is likely sorted already. -/
def pdqsortPrepare {α : Type} (next : Nat → Nat) (less : α → α → Bool) (data : List α)
    (a b limit : Nat) (wasBalanced wasPartitioned : Bool) : PdqRound α :=
  let data := if !wasBalanced then breakPatterns_func next data a b else data
  let limit := if !wasBalanced then limit - 1 else limit
  let ph := choosePivot_func less data a b
  let data := if ph.2 = sortedHint.decreasingHint then reverseRange_func data a b else data
  let pivot := if ph.2 = sortedHint.decreasingHint then (b - 1) - (ph.1 - a) else ph.1
  let hint := if ph.2 = sortedHint.decreasingHint then sortedHint.increasingHint else ph.2
  let tried :=
    if wasBalanced && wasPartitioned && hint = sortedHint.increasingHint
    then partialInsertionSort_func less data a b else (data, false)
  { data := tried.1, pivot := pivot, limit := limit, sorted := tried.2 }

/-- Go `pdqsort_func(data, a, b, limit)` from the head of its `for` loop, with the loop
variables `wasBalanced` and `wasPartitioned`. The first number bounds the depth of loop rounds
and nested calls; each round shortens `data[a:b]`, so `b - a + 1` is enough. -/
def pdqsortLoop {α : Type} (next : Nat → Nat) (less : α → α → Bool) :
    Nat → List α → Nat → Nat → Nat → Bool → Bool → List α
  | 0, data, _, _, _, _, _ => data
  | fuel + 1, data, a, b, limit, wasBalanced, wasPartitioned =>
    if b - a ≤ 12 then insertionSortRange less data a b
    else if limit = 0 then heapSort_func less data a b
    else
      let p := pdqsortPrepare next less data a b limit wasBalanced wasPartitioned
      if p.sorted then p.data
      else if a > 0 && !lessAt less p.data (a - 1) p.pivot then
        let r := partitionEqual_func less p.data a b p.pivot
        pdqsortLoop next less fuel r.1 r.2 b p.limit wasBalanced wasPartitioned
      else
        let r := partition_func less p.data a b p.pivot
        if r.2.1 - a < b - r.2.1 then
          pdqsortLoop next less fuel (pdqsortLoop next less fuel r.1 a r.2.1 p.limit true true)
            (r.2.1 + 1) b p.limit (decide (r.2.1 - a ≥ (b - a) / 8)) r.2.2
        else
          pdqsortLoop next less fuel
            (pdqsortLoop next less fuel r.1 (r.2.1 + 1) b p.limit true true)
            a r.2.1 p.limit (decide (b - r.2.1 ≥ (b - a) / 8)) r.2.2

/-- Go `sort.Slice(x, less)` as of Go 1.19 and later, with `less` read on elements:
`pdqsort_func(lessSwap{less, swap}, 0, length, bits.Len(uint(length)))`. `next` is the
pseudo-random generator of `breakPatterns_func`. -/
def sortSlice {α : Type} (next : Nat → Nat) (less : α → α → Bool) (xs : List α) : List α :=
  pdqsortLoop next less (xs.length + 1) xs 0 xs.length (bitsLen xs.length) true true

/-! ## Properties of slices used in the proofs -/

/-- The slice `d2` is `d1` with the elements of `d1[a:b]` rearranged. -/
def RangePerm {α : Type} (a b : Nat) (d1 d2 : List α) : Prop :=
  d2.Perm d1 ∧ ∀ k, (k < a ∨ b ≤ k) → d2[k]? = d1[k]?

/-- The sub-slice `d[a:b]` is in order: no element is `less` than an earlier one. -/
def SortedOn {α : Type} (less : α → α → Bool) (d : List α) (a b : Nat) : Prop :=
  ∀ i j x y, a ≤ i → i < j → j < b → d[i]? = some x → d[j]? = some y → less y x = false

/-- No element of `d[a:b]` is `less` than the element before the sub-slice, if there is one. -/
def BoundedBelow {α : Type} (less : α → α → Bool) (d : List α) (a b : Nat) : Prop :=
  ∀ k x p, 0 < a → a ≤ k → k < b → d[k]? = some x → d[a - 1]? = some p → less x p = false

/-- The nodes `lo..` of the heap in `d[first:first+hi]` are not `less` than their children. -/
def HeapFrom {α : Type} (less : α → α → Bool) (d : List α) (first lo hi : Nat) : Prop :=
  ∀ n c, lo ≤ n → (c = 2 * n + 1 ∨ c = 2 * n + 2) → c < hi →
    lessAt less d (first + n) (first + c) = false

/-! ## prompter -/

/-- The comparison handed to `sort.Slice` in `prompter`:
`ratings[mlprompts[i]] > ratings[mlprompts[j]]`. -/
def ratingLess (env : Env) (x y : GoString) : Bool :=
  strLess (env.ratings.index y) (env.ratings.index x)

/-- The requests made to the remote client so far: `(query, n)` in order. -/
abbrev Requests := List (GoString × Int)

/-- Go `GetPrompts(q, n)`: one request to the remote service, recorded in the log. `none` is
one of its `log.Fatal` exits. -/
def GetPrompts (env : Env) (q : GoString) (n : Int) (log : Requests) :
    Option (List GoString) × Requests :=
  (env.respond q n, log ++ [(q, n)])

/-- The loop `for i, w := range queryWords` of `prompter`; `n` is `len(queryWords)`, the state is
`(str1, str2)`. -/
def wordLoop (Suggest : GoString → GoMap Int → GoString) (words : GoMap Int) (n : Int) :
    Int → List GoString → GoString × GoString → GoString × GoString
  | _, [], strs => strs
  | i, w :: rest, (str1, str2) =>
    if i = n - 1 then
      let temp := Suggest w words
      wordLoop Suggest words n (i + 1) rest (str1 ++ temp, str2 ++ temp)
    else
      wordLoop Suggest words n (i + 1) rest
        (str1 ++ (Suggest w words ++ [space]), str2 ++ (w ++ [space]))

/-- The pair `(str1, str2)` of `prompter` after its loop. -/
def runningStrings (env : Env) (query : GoString) : GoString × GoString :=
  let queryWords := Split (strip (ToLower env.unicodeLower query))
  wordLoop env.Suggest env.words queryWords.length 0 queryWords ([], [])

/-- The string `str1` of `prompter`: the fully corrected phrase. -/
def corrected (env : Env) (query : GoString) : GoString := (runningStrings env query).1

/-- The string `str2` of `prompter`: the phrase the spec calls literal. -/
def literal (env : Env) (query : GoString) : GoString := (runningStrings env query).2

/-- The slice `prompts` of `prompter` when `GetPrompts` is called: the local candidates. -/
def localPrompts (env : Env) (query : GoString) : Slice :=
  let q := strip (ToLower env.unicodeLower query)
  let (str1, str2) := runningStrings env query
  let prompts := make 5
  let prompts := if str2 ≠ q then prompts.append [str2] else prompts
  if str1 ≠ q ∧ str1 ≠ str2 then prompts.append [str1] else prompts

/-- The count `cap(prompts)-len(prompts)` that `prompter` passes to `GetPrompts`. -/
def remaining (env : Env) (query : GoString) : Int :=
  ((localPrompts env query).cap : Int) - ((localPrompts env query).data.length : Int)

/-- What a run of `prompter` did: the requests it made and, unless `log.Fatal` ended the
process, the slice it returned. -/
structure Run where
  calls : Requests
  result : Option (List GoString)

/-- Go `prompter(query)`. -/
def prompter (env : Env) (query : GoString) : Run :=
  let str1 := (runningStrings env query).1
  let prompts := localPrompts env query
  match GetPrompts env str1 ((prompts.cap : Int) - (prompts.data.length : Int)) [] with
  | (none, log) => ⟨log, none⟩
  | (some mlprompts, log) =>
    let mlprompts := sortSlice env.xorshift (ratingLess env) mlprompts
    ⟨log, some (prompts.append mlprompts).data⟩

/-! ## The UI model -/

/-- The key types `Update` distinguishes; `other` is any further key. -/
inductive KeyType
  | KeyCtrlC | KeyEsc | KeyUp | KeyDown | KeyEnter | KeyTab | other
  deriving DecidableEq, Repr

/-- A `tea.Msg` as `Update` switches on it. -/
inductive Msg
  | KeyMsg (t : KeyType)
  | errMsg
  | other
  deriving DecidableEq, Repr

/-- A `tea.Cmd` as `Update` returns it. -/
inductive Cmd
  | Quit
  | fromTextInput
  | nil
  deriving DecidableEq, Repr

/-- The widget `textinput.Model` of the bubbles library, by the operations `Update` uses. -/
structure TextInput where
  State : Type
  New : State
  Update : State → Msg → State
  SetValue : State → GoString → State
  Value : State → GoString

/-- Go `uimodel` (`err` keeps only whether an error is stored). -/
structure uimodel (ti : TextInput) where
  textInput : ti.State
  choices : List GoString
  selected : List Int
  cursor : Int
  err : Bool

/-- The ways a call of `Update` ends without returning. -/
inductive Fault
  | indexOutOfRange
  | fatal
  deriving DecidableEq, Repr

/-- Go `initialModel()`. -/
def initialModel (ti : TextInput) : uimodel ti :=
  { textInput := ti.New, choices := [], selected := [], cursor := 0, err := false }

/-- Go `xs[i]` on a slice: a run-time panic unless `0 <= i < len(xs)`. -/
def indexSlice (xs : List GoString) (i : Int) : Except Fault GoString :=
  if i < 0 then Except.error Fault.indexOutOfRange
  else match xs[i.toNat]? with
    | some x => Except.ok x
    | none => Except.error Fault.indexOutOfRange

/-- A call of `prompter` inside `Update`: a `log.Fatal` in `GetPrompts` ends the process. -/
def callPrompter (env : Env) (query : GoString) : Except Fault (List GoString) :=
  match (prompter env query).result with
  | some choices => Except.ok choices
  | none => Except.error Fault.fatal

/-- Go `uimodel.Update`. -/
def Update (env : Env) (ti : TextInput) (m : uimodel ti) (msg : Msg) :
    Except Fault (uimodel ti × Cmd) :=
  match msg with
  | Msg.KeyMsg KeyType.KeyCtrlC => Except.ok (m, Cmd.Quit)
  | Msg.KeyMsg KeyType.KeyEsc => Except.ok (m, Cmd.Quit)
  | Msg.KeyMsg KeyType.KeyUp =>
    let m := if m.cursor > 0 then { m with cursor := m.cursor - 1 } else m
    Except.ok ({ m with textInput := ti.Update m.textInput msg }, Cmd.fromTextInput)
  | Msg.KeyMsg KeyType.KeyDown =>
    let m := if m.cursor < (m.choices.length : Int) - 1 then { m with cursor := m.cursor + 1 } else m
    Except.ok ({ m with textInput := ti.Update m.textInput msg }, Cmd.fromTextInput)
  | Msg.KeyMsg KeyType.KeyEnter =>
    let m := { m with textInput := ti.Update m.textInput msg }
    match callPrompter env (ti.Value m.textInput) with
    | Except.error f => Except.error f
    | Except.ok choices => Except.ok ({ m with choices := choices }, Cmd.fromTextInput)
  | Msg.KeyMsg KeyType.KeyTab =>
    let m := { m with textInput := ti.Update m.textInput msg }
    match indexSlice m.choices m.cursor with
    | Except.error f => Except.error f
    | Except.ok choice =>
      let m := { m with textInput := ti.SetValue m.textInput choice }
      match callPrompter env (ti.Value m.textInput) with
      | Except.error f => Except.error f
      | Except.ok choices => Except.ok ({ m with choices := choices }, Cmd.fromTextInput)
  | Msg.KeyMsg KeyType.other =>
    Except.ok ({ m with textInput := ti.Update m.textInput msg }, Cmd.fromTextInput)
  | Msg.errMsg => Except.ok ({ m with err := true }, Cmd.nil)
  | Msg.other => Except.ok ({ m with textInput := ti.Update m.textInput msg }, Cmd.fromTextInput)

/-- A run of the UI from a model through a sequence of messages, stopping at the first fault. -/
def runUpdates (env : Env) (ti : TextInput) : uimodel ti → List Msg → Except Fault (uimodel ti)
  | m, [] => Except.ok m
  | m, msg :: rest =>
    match Update env ti m msg with
    | Except.error f => Except.error f
    | Except.ok (m1, _) => runUpdates env ti m1 rest

/-- The cursor and the choices of the model a run ended in, when it returned. -/
def cursorAndChoices {ti : TextInput} : Except Fault (uimodel ti) → Option (Int × List GoString)
  | Except.ok m => some (m.cursor, m.choices)
  | Except.error _ => none

/-- The fault a run ended with, when it did not return. -/
def faultOf {α : Type} : Except Fault α → Option Fault
  | Except.ok _ => none
  | Except.error f => some f

/-! ## Startup: Ping and main -/

/-- What `client.Do(req)` gives a probe: an error, or a response with its status code. -/
inductive Response
  | failed
  | status (code : Nat)
  deriving DecidableEq, Repr

/-- Where a `Ping` goroutine stands: inside `client.Do(req)`, blocked at `quit <- struct{}{}`
(the channel is unbuffered), or returned. -/
inductive ProbePc
  | requesting
  | sending
  | returned
  deriving DecidableEq, Repr

/-- A `Ping` goroutine: its position, what `client.Do` returned once it has, and whether its
send on `quit` completed. -/
structure Probe where
  pc : ProbePc
  resp : Option Response
  sent : Bool
  deriving DecidableEq, Repr

/-- Go `Ping` from the return of `client.Do(req)` on: `if err != nil { return }`, then
`if resp.StatusCode == 200 { quit <- struct{}{} }`. (Before that point `Ping` only builds the
request; a failure there ends the whole process through `log.Fatal`.) -/
def Ping (r : Response) : Probe :=
  match r with
  | Response.failed => ⟨ProbePc.returned, some r, false⟩
  | Response.status code =>
    if code = 200 then ⟨ProbePc.sending, some r, false⟩ else ⟨ProbePc.returned, some r, false⟩

/-- Where `main` stands: in the `select` of its loop; in `case <-quit` before `ticker.Stop()`;
past `break LOOP`; inside `app.TeaUI()`. -/
inductive MainPc
  | selecting
  | gotQuit
  | leftLoop
  | inTeaUI
  deriving DecidableEq, Repr

/-- The process during startup: `main`, the ticker, the `Ping` goroutines in the order they
were started, and the number of values `main` has received from `quit`. -/
structure System where
  main : MainPc
  tickerRunning : Bool
  probes : List Probe
  received : Nat
  deriving DecidableEq, Repr

/-- The start of `main`: ticker created, channel created, no goroutine yet. -/
def System.init : System :=
  { main := MainPc.selecting, tickerRunning := true, probes := [], received := 0 }

/-- One scheduling step of the process. -/
inductive Event
  /-- `case <-ticker.C: go app.Ping(...)`. -/
  | tick
  /-- `client.Do` of goroutine `i` returns `r`. -/
  | response (i : Nat) (r : Response)
  /-- The send of goroutine `i` on `quit` meets `case <-quit` of `main`. -/
  | handoff (i : Nat)
  /-- `ticker.Stop(); break LOOP` in `main`. -/
  | stopTicker
  /-- `app.TeaUI()` in `main`. -/
  | callTeaUI
  deriving DecidableEq, Repr

/-- The effect of an event; an event that cannot happen in the state leaves it unchanged. -/
def System.step (s : System) : Event → System
  | Event.tick =>
    if s.main = MainPc.selecting ∧ s.tickerRunning = true then
      { s with probes := s.probes ++ [⟨ProbePc.requesting, none, false⟩] }
    else s
  | Event.response i r =>
    match s.probes[i]? with
    | some p => if p.pc = ProbePc.requesting then { s with probes := s.probes.set i (Ping r) } else s
    | none => s
  | Event.handoff i =>
    match s.probes[i]? with
    | some p =>
      if p.pc = ProbePc.sending ∧ s.main = MainPc.selecting then
        { s with
          main := MainPc.gotQuit
          received := s.received + 1
          probes := s.probes.set i { p with pc := ProbePc.returned, sent := true } }
      else s
    | none => s
  | Event.stopTicker =>
    if s.main = MainPc.gotQuit then { s with main := MainPc.leftLoop, tickerRunning := false }
    else s
  | Event.callTeaUI =>
    if s.main = MainPc.leftLoop then { s with main := MainPc.inTeaUI } else s

/-- The state after a schedule of events from the start of `main`. -/
def System.exec (events : List Event) : System := events.foldl System.step System.init

/-- The property kept by every step: `main` is past its `select` only after exactly one
receive, from a goroutine whose send completed; a goroutine at or past its send saw status 200;
a completed send belongs to a returned goroutine; the ticker is stopped once `main` left the
loop. -/
def System.Safe (s : System) : Prop :=
  (s.main = MainPc.selecting → s.received = 0 ∧ s.tickerRunning = true)
  ∧ (s.main ≠ MainPc.selecting → s.received = 1 ∧ ∃ p ∈ s.probes, p.sent = true)
  ∧ (∀ p ∈ s.probes, ((p.pc = ProbePc.sending ∨ p.sent = true) →
      p.resp = some (Response.status 200)) ∧ (p.sent = true → p.pc = ProbePc.returned))
  ∧ (s.main = MainPc.leftLoop ∨ s.main = MainPc.inTeaUI → s.tickerRunning = false)

/-! ## Example environments -/

/-- The 64-bit xorshift generator with the shifts 13, 7 and 17. -/
def xorshift64 (r : Nat) : Nat :=
  let r := r ^^^ ((r <<< 13) % 2 ^ 64)
  let r := r ^^^ (r >>> 7)
  r ^^^ ((r <<< 17) % 2 ^ 64)

/-- An oracle that knows one correction, `matriks` to `matrix`. -/
def demoSuggest (w : GoString) (_ : GoMap Int) : GoString :=
  if w = ascii "matriks" then ascii "matrix" else w

/-- The ratings of the spec's scenarios, and one title whose rating field is empty. -/
def demoRatings : GoMap GoString := fun t =>
  if t = ascii "the matrix" then some (ascii "8.7")
  else if t = ascii "the matrix reloaded" then some (ascii "7.2")
  else if t = ascii "the matrix revolutions" then some (ascii "6.7")
  else if t = ascii "untitled" then some []
  else none

/-- An environment around a given remote answer, with `demoSuggest` and `demoRatings`. -/
def demoEnv (respond : GoString → Int → Option (List GoString)) : Env :=
  { unicodeLower := fun s => s
    words := fun _ => none
    ratings := demoRatings
    Suggest := demoSuggest
    respond := respond
    xorshift := xorshift64 }

/-- Ratings with a tie: the one-letter titles are rated `7.0`, except `m`, rated `9.0`. -/
def tieRatings : GoMap GoString := fun t =>
  if t = ascii "m" then some (ascii "9.0")
  else if t.length = 1 then some (ascii "7.0")
  else none

/-- The thirteen one-letter titles `a` to `m`, in this order. -/
def tieTitles : List GoString :=
  [ascii "a", ascii "b", ascii "c", ascii "d", ascii "e", ascii "f", ascii "g", ascii "h",
   ascii "i", ascii "j", ascii "k", ascii "l", ascii "m"]

/-- An environment whose remote service answers every request with `tieTitles`, rated by
`tieRatings`. -/
def tieEnv : Env :=
  { unicodeLower := fun s => s
    words := fun _ => none
    ratings := tieRatings
    Suggest := demoSuggest
    respond := fun _ _ => some tieTitles
    xorshift := xorshift64 }

/-- A text input holding just its value, which keys other than runes leave alone. -/
def plainInput : TextInput :=
  { State := GoString
    New := []
    Update := fun v _ => v
    SetValue := fun _ v => v
    Value := fun v => v }

/-! ## Lemmas on the normalizer -/

theorem stripLoop_eq (s result : GoString) :
    stripLoop s result = result ++ s.filter keep := by
  induction s generalizing result with
  | nil => simp [stripLoop]
  | cons b rest ih =>
    by_cases hb : keep b = true
    · simp [stripLoop, hb, ih]
    · simp [stripLoop, hb, ih]

theorem strip_eq_filter (s : GoString) : strip s = s.filter keep := by
  simp [strip, stripLoop_eq]

theorem keep_iff (b : Nat) :
    keep b = true ↔ (97 ≤ b ∧ b ≤ 122) ∨ (48 ≤ b ∧ b ≤ 57) ∨ b = 32 := by
  simp [keep, or_assoc]

theorem keep_of_mem_strip {s : GoString} {b : Nat} (h : b ∈ strip s) : keep b = true := by
  rw [strip_eq_filter] at h
  exact (List.mem_filter.mp h).2

theorem strip_of_all_keep {s : GoString} (h : ∀ b ∈ s, keep b = true) : strip s = s := by
  rw [strip_eq_filter]
  exact List.filter_eq_self.mpr h

theorem ToLower_of_all_keep (u : GoString → GoString) {s : GoString}
    (h : ∀ b ∈ s, keep b = true) : ToLower u s = s := by
  have hascii : isASCII s = true := by
    simp only [isASCII, List.all_eq_true, decide_eq_true_eq]
    intro c hc
    have := (keep_iff c).mp (h c hc)
    omega
  have hup : hasUpper s = false := by
    rw [Bool.eq_false_iff]
    intro hcon
    simp only [hasUpper, List.any_eq_true, Bool.and_eq_true, decide_eq_true_eq] at hcon
    obtain ⟨c, hc, h1, h2⟩ := hcon
    have := (keep_iff c).mp (h c hc)
    omega
  simp [ToLower, hascii, hup]

theorem normalize_of_isASCII (u : GoString → GoString) {s : GoString}
    (h : isASCII s = true) : normalize u s = normalize (fun t => t) s := by
  simp [normalize, ToLower, h]

/-! ## Lemmas on Split and the word loop -/

theorem splitLoop_ne_nil (s cur : GoString) : splitLoop s cur ≠ [] := by
  induction s generalizing cur with
  | nil => simp [splitLoop]
  | cons b rest ih =>
    unfold splitLoop
    split
    · simp
    · exact ih _

theorem Split_ne_nil (s : GoString) : Split s ≠ [] := splitLoop_ne_nil s []

theorem splitLoop_of_no_space (s cur : GoString) (h : space ∉ s) :
    splitLoop s cur = [cur ++ s] := by
  induction s generalizing cur with
  | nil => simp [splitLoop]
  | cons b rest ih =>
    have hb : b ≠ space := fun hb => h (by simp [hb])
    have hrest : space ∉ rest := fun hr => h (by simp [hr])
    simp [splitLoop, hb, ih _ hrest]

theorem Split_of_no_space {s : GoString} (h : space ∉ s) : Split s = [s] := by
  simpa [Split] using splitLoop_of_no_space s [] h

theorem splitLoop_intercalate (s cur : GoString) :
    List.intercalate [space] (splitLoop s cur) = cur ++ s := by
  induction s generalizing cur with
  | nil => simp [splitLoop, List.intercalate]
  | cons b rest ih =>
    by_cases hb : b = space
    · have hrest := ih []
      cases hsl : splitLoop rest [] with
      | nil => exact absurd hsl (splitLoop_ne_nil rest [])
      | cons t ts =>
        rw [hsl] at hrest
        simp only [splitLoop, hb, if_true, hsl]
        simp only [List.intercalate, List.intersperse, List.flatten_cons] at hrest ⊢
        rw [hrest]
        simp
    · simp [splitLoop, hb, ih]

theorem Split_intercalate (s : GoString) : List.intercalate [space] (Split s) = s := by
  simpa [Split] using splitLoop_intercalate s []

theorem splitLoop_no_space (s cur : GoString) (hcur : space ∉ cur) :
    ∀ t ∈ splitLoop s cur, space ∉ t := by
  induction s generalizing cur with
  | nil =>
    intro t ht
    simp only [splitLoop, List.mem_singleton] at ht
    rw [ht]
    exact hcur
  | cons b rest ih =>
    by_cases hb : b = space
    · intro t ht
      simp only [splitLoop, hb, if_true, List.mem_cons] at ht
      rcases ht with ht | ht
      · rw [ht]
        exact hcur
      · exact ih [] (by simp) t ht
    · intro t ht
      simp only [splitLoop, hb, if_false] at ht
      refine ih (cur ++ [b]) ?_ t ht
      intro hmem
      rcases List.mem_append.mp hmem with h | h
      · exact hcur h
      · simp only [List.mem_singleton] at h
        exact hb h.symm

theorem Split_no_space (s : GoString) : ∀ t ∈ Split s, space ∉ t :=
  splitLoop_no_space s [] (by simp)

theorem wordLoop_eq (S : GoString → GoMap Int → GoString) (W : GoMap Int) (n : Int)
    (ws : List GoString) (hne : ws ≠ []) (i : Int) (s1 s2 : GoString)
    (hn : i + (ws.length : Int) = n) :
    wordLoop S W n i ws (s1, s2) =
      (s1 ++ (ws.dropLast.flatMap (fun t => S t W ++ [space]) ++ S (ws.getLast hne) W),
       s2 ++ (ws.dropLast.flatMap (fun t => t ++ [space]) ++ S (ws.getLast hne) W)) := by
  induction ws generalizing i s1 s2 with
  | nil => exact absurd rfl hne
  | cons w rest ih =>
    cases rest with
    | nil =>
      have hi : i = n - 1 := by simp at hn; omega
      simp [wordLoop, hi]
    | cons w2 rest2 =>
      have hi : ¬ i = n - 1 := by
        simp only [List.length_cons] at hn
        push_cast at hn
        omega
      have hn2 : i + 1 + ((w2 :: rest2).length : Int) = n := by
        simp only [List.length_cons] at hn ⊢
        push_cast at hn ⊢
        omega
      rw [wordLoop, if_neg hi, ih (by simp) (i + 1) _ _ hn2]
      simp [List.flatMap_cons, List.append_assoc]

theorem runningStrings_eq (env : Env) (query : GoString) :
    runningStrings env query =
      ((Split (normalize env.unicodeLower query)).dropLast.flatMap
          (fun t => env.Suggest t env.words ++ [space]) ++
        env.Suggest ((Split (normalize env.unicodeLower query)).getLast (Split_ne_nil _))
          env.words,
       (Split (normalize env.unicodeLower query)).dropLast.flatMap (fun t => t ++ [space]) ++
        env.Suggest ((Split (normalize env.unicodeLower query)).getLast (Split_ne_nil _))
          env.words) := by
  have h := wordLoop_eq env.Suggest env.words
    ((Split (normalize env.unicodeLower query)).length : Int)
    (Split (normalize env.unicodeLower query)) (Split_ne_nil _) 0 [] [] (by simp)
  simpa [runningStrings, normalize] using h

theorem localPrompts_data (env : Env) (query : GoString) :
    (localPrompts env query).data =
      (if literal env query ≠ normalize env.unicodeLower query then [literal env query] else [])
      ++ (if corrected env query ≠ normalize env.unicodeLower query
            ∧ corrected env query ≠ literal env query then [corrected env query] else []) := by
  unfold localPrompts literal corrected normalize
  by_cases h2 : (runningStrings env query).2 = strip (ToLower env.unicodeLower query) <;>
  by_cases h1 : (runningStrings env query).1 = strip (ToLower env.unicodeLower query) <;>
  by_cases h12 : (runningStrings env query).1 = (runningStrings env query).2 <;>
  simp [h1, h2, h12, make, Slice.append]

theorem localPrompts_cap (env : Env) (query : GoString) : (localPrompts env query).cap = 5 := by
  unfold localPrompts
  by_cases h2 : (runningStrings env query).2 = strip (ToLower env.unicodeLower query) <;>
  by_cases h1 : (runningStrings env query).1 = strip (ToLower env.unicodeLower query) <;>
  by_cases h12 : (runningStrings env query).1 = (runningStrings env query).2 <;>
  simp [h1, h2, h12, make, Slice.append]

theorem localPrompts_length_le (env : Env) (query : GoString) :
    (localPrompts env query).data.length ≤ 2 := by
  rw [localPrompts_data]
  split <;> split <;> simp

theorem prompter_result (env : Env) (query : GoString) :
    (prompter env query).result =
      (env.respond (corrected env query) (remaining env query)).map (fun mlprompts =>
        (localPrompts env query).data ++ sortSlice env.xorshift (ratingLess env) mlprompts) := by
  unfold prompter GetPrompts remaining corrected
  cases h : env.respond (runningStrings env query).1
      (((localPrompts env query).cap : Int) - ((localPrompts env query).data.length : Int)) with
  | none => simp [h]
  | some ml => simp [h, Slice.append]

/-! ## Lemmas on string comparison -/

theorem strLess_irrefl (a : GoString) : strLess a a = false := by
  induction a with
  | nil => rfl
  | cons x xs ih => simp [strLess, ih]

theorem strLess_nil_left (b : GoString) : strLess [] b = false → b = [] := by
  cases b <;> simp [strLess]

theorem strLess_asymm : ∀ (a b : GoString), strLess a b = true → strLess b a = false
  | [], [], h => by simp [strLess] at h
  | [], _ :: _, _ => by simp [strLess]
  | _ :: _, [], h => by simp [strLess] at h
  | x :: xs, y :: ys, h => by
    simp only [strLess] at h ⊢
    by_cases hxy : x < y
    · have : ¬ y < x := by omega
      simp [this, hxy]
    · by_cases hyx : y < x
      · simp [hxy, hyx] at h
      · simp only [hxy, hyx, if_false] at h ⊢
        exact strLess_asymm xs ys h

theorem strLess_connected : ∀ (a b : GoString), strLess a b = false → strLess b a = false → a = b
  | [], [], _, _ => rfl
  | [], _ :: _, h, _ => by simp [strLess] at h
  | _ :: _, [], _, h => by simp [strLess] at h
  | x :: xs, y :: ys, h1, h2 => by
    simp only [strLess] at h1 h2
    by_cases hxy : x < y
    · simp [hxy] at h1
    · by_cases hyx : y < x
      · simp [hyx] at h2
      · simp only [hxy, hyx, if_false] at h1 h2
        have hx : x = y := by omega
        rw [hx, strLess_connected xs ys h1 h2]

theorem strLess_trans : ∀ (a b c : GoString), strLess a b = true → strLess b c = true →
    strLess a c = true
  | [], _, [], _, h => by cases ‹GoString› <;> simp [strLess] at h
  | [], _, _ :: _, _, _ => by simp [strLess]
  | _ :: _, [], _, h, _ => by simp [strLess] at h
  | _ :: _, _ :: _, [], _, h => by simp [strLess] at h
  | x :: xs, y :: ys, z :: zs, h1, h2 => by
    simp only [strLess] at h1 h2 ⊢
    by_cases hxy : x < y
    · by_cases hyz : y < z
      · have : x < z := by omega
        simp [this]
      · by_cases hzy : z < y
        · simp [hyz, hzy] at h2
        · have : x < z := by omega
          simp [this]
    · by_cases hyx : y < x
      · simp [hxy, hyx] at h1
      · simp only [hxy, hyx, if_false] at h1
        have hx : x = y := by omega
        subst hx
        by_cases hyz : x < z
        · simp [hyz]
        · by_cases hzy : z < x
          · simp [hyz, hzy] at h2
          · simp only [hyz, hzy, if_false] at h2 ⊢
            exact strLess_trans xs ys zs h1 h2

theorem strLess_negTrans (a b c : GoString) (h1 : strLess a b = false)
    (h2 : strLess b c = false) : strLess a c = false := by
  rw [Bool.eq_false_iff]
  intro hac
  by_cases hcb : strLess c b = true
  · have := strLess_trans a c b hac hcb
    rw [h1] at this
    exact Bool.false_ne_true this
  · have hbc : b = c := strLess_connected b c h2 (by simpa using hcb)
    subst hbc
    rw [h1] at hac
    exact Bool.false_ne_true hac

/-! ## Lemmas on the insertion sort -/

section InsertionSort

variable {α : Type} (less : α → α → Bool)

theorem sinkLeft_perm (x : α) (ys : List α) : (sinkLeft less x ys).Perm (x :: ys) := by
  induction ys with
  | nil => exact List.Perm.refl _
  | cons y ys ih =>
    by_cases h : less x y = true
    · simp only [sinkLeft, h, if_true]
      exact (List.Perm.cons y ih).trans (List.Perm.swap x y ys)
    · have h2 : less x y = false := by simpa using h
      simp only [sinkLeft, h2, Bool.false_eq_true, if_false]
      exact List.Perm.refl _

theorem foldl_sinkLeft_perm (xs acc : List α) :
    (xs.foldl (fun sorted x => sinkLeft less x sorted) acc).Perm (xs ++ acc) := by
  induction xs generalizing acc with
  | nil => exact List.Perm.refl _
  | cons x xs ih =>
    simp only [List.foldl_cons, List.cons_append]
    exact (ih _).trans ((List.Perm.append_left xs (sinkLeft_perm less x acc)).trans
      List.perm_middle)

theorem insertionSort_func_perm (xs : List α) : (insertionSort_func less xs).Perm xs := by
  unfold insertionSort_func
  have h := foldl_sinkLeft_perm less xs []
  rw [List.append_nil] at h
  exact (List.reverse_perm _).trans h

theorem sinkLeft_pairwise (hasymm : ∀ a b, less a b = true → less b a = false)
    (hneg : ∀ a b c, less a b = false → less b c = false → less a c = false)
    (x : α) (ys : List α) (h : ys.Pairwise (fun a b => less a b = false)) :
    (sinkLeft less x ys).Pairwise (fun a b => less a b = false) := by
  induction ys with
  | nil => simp [sinkLeft]
  | cons y ys ih =>
    rw [List.pairwise_cons] at h
    by_cases hxy : less x y = true
    · simp only [sinkLeft, hxy, if_true]
      rw [List.pairwise_cons]
      refine ⟨?_, ih h.2⟩
      intro z hz
      rcases List.mem_cons.mp ((sinkLeft_perm less x ys).mem_iff.mp hz) with hzx | hzy
      · rw [hzx]; exact hasymm x y hxy
      · exact h.1 z hzy
    · have hxy2 : less x y = false := by simpa using hxy
      simp only [sinkLeft, hxy2, Bool.false_eq_true, if_false]
      rw [List.pairwise_cons]
      refine ⟨?_, List.pairwise_cons.mpr h⟩
      intro z hz
      rcases List.mem_cons.mp hz with hzy | hzy
      · rw [hzy]; exact hxy2
      · exact hneg x y z hxy2 (h.1 z hzy)

theorem foldl_sinkLeft_pairwise (hasymm : ∀ a b, less a b = true → less b a = false)
    (hneg : ∀ a b c, less a b = false → less b c = false → less a c = false)
    (xs acc : List α) (h : acc.Pairwise (fun a b => less a b = false)) :
    (xs.foldl (fun sorted x => sinkLeft less x sorted) acc).Pairwise
      (fun a b => less a b = false) := by
  induction xs generalizing acc with
  | nil => exact h
  | cons x xs ih => exact ih _ (sinkLeft_pairwise less hasymm hneg x acc h)

theorem insertionSort_func_pairwise (hasymm : ∀ a b, less a b = true → less b a = false)
    (hneg : ∀ a b c, less a b = false → less b c = false → less a c = false)
    (xs : List α) :
    (insertionSort_func less xs).Pairwise (fun a b => less b a = false) := by
  unfold insertionSort_func
  rw [List.pairwise_reverse]
  exact foldl_sinkLeft_pairwise less hasymm hneg xs [] List.Pairwise.nil

theorem sinkLeft_filter (p : α → Bool)
    (hp : ∀ a b, less a b = true → p a = true → p b = true → False) (x : α) (ys : List α) :
    (sinkLeft less x ys).filter p = (x :: ys).filter p := by
  induction ys with
  | nil => rfl
  | cons y ys ih =>
    by_cases hxy : less x y = true
    · simp only [sinkLeft, hxy, if_true]
      by_cases hpx : p x = true
      · have hpy : p y = false := by
          rw [Bool.eq_false_iff]
          exact fun hpy => hp x y hxy hpx hpy
        simp [List.filter_cons, hpx, hpy, ih]
      · by_cases hpy : p y = true <;> simp [List.filter_cons, hpx, hpy, ih]
    · have hxy2 : less x y = false := by simpa using hxy
      simp only [sinkLeft, hxy2, Bool.false_eq_true, if_false]

theorem foldl_sinkLeft_filter (p : α → Bool)
    (hp : ∀ a b, less a b = true → p a = true → p b = true → False) (xs acc : List α) :
    (xs.foldl (fun sorted x => sinkLeft less x sorted) acc).filter p
      = (xs.filter p).reverse ++ acc.filter p := by
  induction xs generalizing acc with
  | nil => simp
  | cons x xs ih =>
    simp only [List.foldl_cons]
    rw [ih, sinkLeft_filter less p hp]
    by_cases hpx : p x = true <;> simp [List.filter_cons, hpx]

theorem insertionSort_func_filter (p : α → Bool)
    (hp : ∀ a b, less a b = true → p a = true → p b = true → False) (xs : List α) :
    (insertionSort_func less xs).filter p = xs.filter p := by
  unfold insertionSort_func
  rw [List.filter_reverse, foldl_sinkLeft_filter less p hp]
  simp

end InsertionSort

/-! ## Lemmas on slices and swaps -/

section Slices

variable {α : Type}

theorem swapAt_length (d : List α) (i j : Nat) : (swapAt d i j).length = d.length := by
  unfold swapAt
  split <;> simp

theorem swapAt_of_lt {d : List α} {i j : Nat} (hi : i < d.length) (hj : j < d.length) :
    swapAt d i j = (d.set i d[j]).set j d[i] := by
  simp [swapAt, List.getElem?_eq_getElem hi, List.getElem?_eq_getElem hj]

theorem getElem?_swapAt {d : List α} {i j : Nat} (hi : i < d.length) (hj : j < d.length)
    (k : Nat) :
    (swapAt d i j)[k]? = if k = j then d[i]? else if k = i then d[j]? else d[k]? := by
  rw [swapAt_of_lt hi hj]
  by_cases hkj : k = j
  · subst hkj
    rw [List.getElem?_set_self (by simpa using hj)]
    simp [List.getElem?_eq_getElem hi]
  · rw [List.getElem?_set_ne (Ne.symm hkj)]
    by_cases hki : k = i
    · subst hki
      rw [List.getElem?_set_self hi]
      simp [hkj, List.getElem?_eq_getElem hj]
    · rw [List.getElem?_set_ne (Ne.symm hki)]
      simp [hkj, hki]

theorem getElem?_swapAt_of_ne (d : List α) {i j k : Nat} (hi : k ≠ i) (hj : k ≠ j) :
    (swapAt d i j)[k]? = d[k]? := by
  by_cases h1 : i < d.length
  · by_cases h2 : j < d.length
    · rw [getElem?_swapAt h1 h2]
      simp [hi, hj]
    · simp [swapAt, List.getElem?_eq_none (Nat.le_of_not_lt h2)]
  · simp [swapAt, List.getElem?_eq_none (Nat.le_of_not_lt h1)]

theorem perm_cons_set (t : List α) (k : Nat) (x y : α) (h : t[k]? = some y) :
    (y :: t.set k x).Perm (x :: t) := by
  induction t generalizing k with
  | nil => simp at h
  | cons z t ih =>
    cases k with
    | zero =>
      simp only [List.getElem?_cons_zero, Option.some.injEq] at h
      subst h
      exact List.Perm.swap x z t
    | succ k =>
      simp only [List.getElem?_cons_succ] at h
      simp only [List.set_cons_succ]
      exact (List.Perm.swap z y _).trans
        ((List.Perm.cons z (ih k h)).trans (List.Perm.swap x z t))

theorem perm_set_set (d : List α) (i j : Nat) (x y : α) (hi : d[i]? = some x)
    (hj : d[j]? = some y) : ((d.set i y).set j x).Perm d := by
  induction d generalizing i j with
  | nil => simp at hi
  | cons z t ih =>
    cases i with
    | zero =>
      simp only [List.getElem?_cons_zero, Option.some.injEq] at hi
      subst hi
      cases j with
      | zero =>
        simp only [List.getElem?_cons_zero, Option.some.injEq] at hj
        subst hj
        simp
      | succ j =>
        simp only [List.getElem?_cons_succ] at hj
        simp only [List.set_cons_zero, List.set_cons_succ]
        exact perm_cons_set t j z y hj
    | succ i =>
      simp only [List.getElem?_cons_succ] at hi
      cases j with
      | zero =>
        simp only [List.getElem?_cons_zero, Option.some.injEq] at hj
        subst hj
        simp only [List.set_cons_zero, List.set_cons_succ]
        exact perm_cons_set t i z x hi
      | succ j =>
        simp only [List.getElem?_cons_succ] at hj
        simp only [List.set_cons_succ]
        exact List.Perm.cons z (ih i j hi hj)

theorem swapAt_perm (d : List α) (i j : Nat) : (swapAt d i j).Perm d := by
  unfold swapAt
  split
  · rename_i x y hx hy
    exact perm_set_set d i j x y hx hy
  · exact List.Perm.refl d

theorem RangePerm.refl (a b : Nat) (d : List α) : RangePerm a b d d :=
  ⟨List.Perm.refl d, fun _ _ => rfl⟩

theorem RangePerm.trans {a b : Nat} {d1 d2 d3 : List α} (h1 : RangePerm a b d1 d2)
    (h2 : RangePerm a b d2 d3) : RangePerm a b d1 d3 :=
  ⟨h2.1.trans h1.1, fun k hk => (h2.2 k hk).trans (h1.2 k hk)⟩

theorem RangePerm.mono {a b a2 b2 : Nat} {d1 d2 : List α} (h : RangePerm a b d1 d2)
    (ha : a2 ≤ a) (hb : b ≤ b2) : RangePerm a2 b2 d1 d2 :=
  ⟨h.1, fun k hk => h.2 k (by omega)⟩

theorem RangePerm.length_eq {a b : Nat} {d1 d2 : List α} (h : RangePerm a b d1 d2) :
    d2.length = d1.length :=
  h.1.length_eq

theorem RangePerm.swap (a b : Nat) (d : List α) {i j : Nat} (hi : a ≤ i ∧ i < b)
    (hj : a ≤ j ∧ j < b) : RangePerm a b d (swapAt d i j) :=
  ⟨swapAt_perm d i j, fun k hk => getElem?_swapAt_of_ne d (by omega) (by omega)⟩

theorem take_eq_of_getElem? {d1 d2 : List α} {a : Nat}
    (h : ∀ k, k < a → d2[k]? = d1[k]?) : d2.take a = d1.take a := by
  apply List.ext_getElem?
  intro n
  rw [List.getElem?_take, List.getElem?_take]
  by_cases hn : n < a
  · simp [hn, h n hn]
  · simp [hn]

theorem drop_eq_of_getElem? {d1 d2 : List α} {b : Nat}
    (h : ∀ k, b ≤ k → d2[k]? = d1[k]?) : d2.drop b = d1.drop b := by
  apply List.ext_getElem?
  intro n
  rw [List.getElem?_drop, List.getElem?_drop]
  exact h _ (by omega)

theorem split_three (d : List α) (a b : Nat) (hab : a ≤ b) :
    d = d.take a ++ ((d.drop a).take (b - a) ++ d.drop b) := by
  have h1 : (d.drop a).take (b - a) ++ (d.drop a).drop (b - a) = d.drop a :=
    List.take_append_drop _ _
  have h2 : (d.drop a).drop (b - a) = d.drop b := by
    rw [List.drop_drop]
    congr 1
    omega
  rw [h2] at h1
  rw [h1, List.take_append_drop]

theorem RangePerm.mid_perm {a b : Nat} {d1 d2 : List α} (h : RangePerm a b d1 d2)
    (hab : a ≤ b) : ((d2.drop a).take (b - a)).Perm ((d1.drop a).take (b - a)) := by
  have ht : d2.take a = d1.take a := take_eq_of_getElem? (fun k hk => h.2 k (Or.inl hk))
  have hd : d2.drop b = d1.drop b := drop_eq_of_getElem? (fun k hk => h.2 k (Or.inr hk))
  have hp := h.1
  rw [split_three d1 a b hab, split_three d2 a b hab, ht, hd] at hp
  exact (List.perm_append_right_iff _).mp ((List.perm_append_left_iff _).mp hp)

theorem getElem?_mid (d : List α) (a b k : Nat) (hk : a ≤ k ∧ k < b) :
    ((d.drop a).take (b - a))[k - a]? = d[k]? := by
  rw [List.getElem?_take, List.getElem?_drop]
  have h1 : k - a < b - a := by omega
  have h2 : a + (k - a) = k := by omega
  simp [h1, h2]

theorem mem_mid_iff (d : List α) (a b : Nat) (x : α) :
    x ∈ (d.drop a).take (b - a) ↔ ∃ k, a ≤ k ∧ k < b ∧ d[k]? = some x := by
  rw [List.mem_iff_getElem?]
  constructor
  · rintro ⟨n, hn⟩
    rw [List.getElem?_take, List.getElem?_drop] at hn
    by_cases hnb : n < b - a
    · simp only [hnb, if_true] at hn
      exact ⟨a + n, by omega, by omega, hn⟩
    · simp [hnb] at hn
  · rintro ⟨k, hak, hkb, hk⟩
    exact ⟨k - a, by rw [getElem?_mid d a b k ⟨hak, hkb⟩]; exact hk⟩

/-- Every element of `d[a:b]` satisfies `P`. -/
theorem RangePerm.forall_range {a b : Nat} {d1 d2 : List α} (h : RangePerm a b d1 d2)
    (P : α → Prop) (hP : ∀ k x, a ≤ k → k < b → d1[k]? = some x → P x) :
    ∀ k x, a ≤ k → k < b → d2[k]? = some x → P x := by
  intro k x hak hkb hx
  have hab : a ≤ b := by omega
  have hmem : x ∈ (d2.drop a).take (b - a) := (mem_mid_iff d2 a b x).mpr ⟨k, hak, hkb, hx⟩
  have hmem1 : x ∈ (d1.drop a).take (b - a) := (h.mid_perm hab).mem_iff.mp hmem
  obtain ⟨k1, h1, h2, h3⟩ := (mem_mid_iff d1 a b x).mp hmem1
  exact hP k1 x h1 h2 h3

end Slices

/-! ## Lemmas on orders and sorted sub-slices -/

section Sorted

variable {α : Type} (less : α → α → Bool)

theorem less_irrefl (hasymm : ∀ a b, less a b = true → less b a = false) (a : α) :
    less a a = false := by
  cases h : less a a with
  | false => rfl
  | true => rw [hasymm a a h] at h; exact absurd h Bool.false_ne_true

theorem less_trans (hasymm : ∀ a b, less a b = true → less b a = false)
    (hneg : ∀ a b c, less a b = false → less b c = false → less a c = false)
    {a b c : α} (h1 : less a b = true) (h2 : less b c = true) : less a c = true := by
  cases h : less a c with
  | true => rfl
  | false =>
    have h3 := hneg a c b h (hasymm b c h2)
    rw [h1] at h3
    exact absurd h3 (by decide)

theorem less_of_less_of_not_less
    (hneg : ∀ a b c, less a b = false → less b c = false → less a c = false)
    {a b c : α} (h1 : less a b = true) (h2 : less c b = false) : less a c = true := by
  cases h : less a c with
  | true => rfl
  | false =>
    have h3 := hneg a c b h h2
    rw [h1] at h3
    exact absurd h3 (by decide)

theorem less_of_not_less_of_less
    (hneg : ∀ a b c, less a b = false → less b c = false → less a c = false)
    {a b c : α} (h1 : less b a = false) (h2 : less b c = true) : less a c = true := by
  cases h : less a c with
  | true => rfl
  | false =>
    have h3 := hneg b a c h1 h
    rw [h2] at h3
    exact absurd h3 (by decide)

theorem lessAt_eq {d : List α} {i j : Nat} {x y : α} (hx : d[i]? = some x)
    (hy : d[j]? = some y) : lessAt less d i j = less x y := by
  simp [lessAt, hx, hy]

theorem SortedOn.of_pairwise {d : List α}
    (h : d.Pairwise (fun x y => less y x = false)) (a b : Nat) : SortedOn less d a b := by
  intro i j x y _ hij _ hx hy
  obtain ⟨hi, hxi⟩ := List.getElem?_eq_some.mp hx
  obtain ⟨hj, hyj⟩ := List.getElem?_eq_some.mp hy
  have := List.pairwise_iff_getElem.mp h i j hi hj hij
  rw [hxi, hyj] at this
  exact this

theorem SortedOn.pairwise {d : List α} (h : SortedOn less d 0 d.length) :
    d.Pairwise (fun x y => less y x = false) := by
  rw [List.pairwise_iff_getElem]
  intro i j hi hj hij
  exact h i j d[i] d[j] (Nat.zero_le _) hij hj (List.getElem?_eq_getElem hi)
    (List.getElem?_eq_getElem hj)

theorem SortedOn.of_small (d : List α) (a b : Nat) (h : b ≤ a + 1) : SortedOn less d a b := by
  intro i j _ _ hai hij hjb _ _
  omega

theorem SortedOn.congr {d d2 : List α} {a b : Nat} (h : SortedOn less d a b)
    (heq : ∀ k, a ≤ k → k < b → d2[k]? = d[k]?) : SortedOn less d2 a b := by
  intro i j x y hai hij hjb hx hy
  rw [heq i hai (by omega)] at hx
  rw [heq j (by omega) hjb] at hy
  exact h i j x y hai hij hjb hx hy

theorem getElem?_insertionSortRange (d : List α) (a b : Nat) (hab : a ≤ b)
    (hb : b ≤ d.length) (k : Nat) :
    (insertionSortRange less d a b)[k]? =
      if k < a then d[k]?
      else if k < b then (insertionSort_func less ((d.drop a).take (b - a)))[k - a]?
      else d[k]? := by
  have hlen1 : (d.take a).length = a := by rw [List.length_take]; omega
  have hlen2 : (insertionSort_func less ((d.drop a).take (b - a))).length = b - a := by
    rw [(insertionSort_func_perm less _).length_eq, List.length_take, List.length_drop]
    omega
  unfold insertionSortRange
  by_cases hka : k < a
  · rw [List.append_assoc, List.getElem?_append_left (by omega), List.getElem?_take]
    simp [hka]
  · by_cases hkb : k < b
    · rw [List.getElem?_append_left (by rw [List.length_append]; omega),
        List.getElem?_append_right (by omega), hlen1]
      simp [hka, hkb]
    · rw [List.getElem?_append_right (by rw [List.length_append]; omega), List.length_append,
        hlen1, hlen2, List.getElem?_drop]
      have : b + (k - (a + (b - a))) = k := by omega
      simp [hka, hkb, this]

theorem insertionSortRange_rangePerm (d : List α) (a b : Nat) (hab : a ≤ b)
    (hb : b ≤ d.length) : RangePerm a b d (insertionSortRange less d a b) := by
  refine ⟨?_, ?_⟩
  · have h := split_three d a b hab
    have hp : (insertionSortRange less d a b).Perm
        (d.take a ++ ((d.drop a).take (b - a) ++ d.drop b)) := by
      unfold insertionSortRange
      rw [List.append_assoc]
      exact List.Perm.append_left _
        (List.Perm.append_right _ (insertionSort_func_perm less _))
    rw [← h] at hp
    exact hp
  · intro k hk
    rw [getElem?_insertionSortRange less d a b hab hb]
    rcases hk with hk | hk
    · simp [hk]
    · have h1 : ¬ k < a := by omega
      have h2 : ¬ k < b := by omega
      simp [h1, h2]

theorem insertionSortRange_sorted (hasymm : ∀ a b, less a b = true → less b a = false)
    (hneg : ∀ a b c, less a b = false → less b c = false → less a c = false)
    (d : List α) (a b : Nat) (hab : a ≤ b) (hb : b ≤ d.length) :
    SortedOn less (insertionSortRange less d a b) a b := by
  intro i j x y hai hij hjb hx hy
  rw [getElem?_insertionSortRange less d a b hab hb] at hx hy
  have h1 : ¬ i < a := by omega
  have h2 : i < b := by omega
  have h3 : ¬ j < a := by omega
  simp only [h1, h2, h3, hjb, if_true, if_false] at hx hy
  exact SortedOn.of_pairwise less
    (insertionSort_func_pairwise less hasymm hneg ((d.drop a).take (b - a))) 0 (b - a)
    (i - a) (j - a) x y (Nat.zero_le _) (by omega) (by omega) hx hy

theorem insertionSortRange_whole (d : List α) :
    insertionSortRange less d 0 d.length = insertionSort_func less d := by
  simp [insertionSortRange]

end Sorted

/-! ## Lemmas on the partition functions -/

section Partition

variable {α : Type} (less : α → α → Bool)

theorem getElem?_swapAt_left {d : List α} {i j : Nat} (hi : i < d.length)
    (hj : j < d.length) : (swapAt d i j)[i]? = d[j]? := by
  rw [getElem?_swapAt hi hj]
  by_cases h : i = j
  · subst h; simp
  · simp [h]

theorem getElem?_swapAt_right {d : List α} {i j : Nat} (hi : i < d.length)
    (hj : j < d.length) : (swapAt d i j)[j]? = d[i]? := by
  rw [getElem?_swapAt hi hj]
  simp

theorem lessAt_congr {d d2 : List α} {k l k2 l2 : Nat} (h1 : d2[k2]? = d[k]?)
    (h2 : d2[l2]? = d[l]?) : lessAt less d2 k2 l2 = lessAt less d k l := by
  simp [lessAt, h1, h2]

theorem scanUp_spec (p : Nat → Bool) (j : Nat) :
    ∀ fuel i, j + 1 - i ≤ fuel →
      i ≤ scanUp p j fuel i
      ∧ (i ≤ j + 1 → scanUp p j fuel i ≤ j + 1)
      ∧ (∀ k, i ≤ k → k < scanUp p j fuel i → p k = true)
      ∧ (scanUp p j fuel i ≤ j → p (scanUp p j fuel i) = false) := by
  intro fuel
  induction fuel with
  | zero =>
    intro i hf
    refine ⟨Nat.le_refl _, fun h => h, ?_, ?_⟩
    · intro k h1 h2
      simp only [scanUp] at h2
      omega
    · intro h
      simp only [scanUp] at h
      omega
  | succ fuel ih =>
    intro i hf
    by_cases hc : (decide (i ≤ j) && p i) = true
    · have hrec := ih (i + 1) (by omega)
      simp only [scanUp, hc, if_true]
      simp only [Bool.and_eq_true, decide_eq_true_eq] at hc
      refine ⟨by omega, fun _ => hrec.2.1 (by omega), ?_, hrec.2.2.2⟩
      intro k h1 h2
      by_cases hk : k = i
      · rw [hk]; exact hc.2
      · exact hrec.2.2.1 k (by omega) h2
    · simp only [scanUp, hc]
      refine ⟨Nat.le_refl _, fun h => h, ?_, ?_⟩
      · intro k h1 h2
        simp only [Bool.false_eq_true, if_false] at h2
        omega
      · intro h
        simp only [Bool.false_eq_true, if_false] at h ⊢
        simp only [Bool.and_eq_true, decide_eq_true_eq, not_and] at hc
        simpa using hc h

theorem scanDown_spec (p : Nat → Bool) (i : Nat) (hi : 1 ≤ i) :
    ∀ fuel j, j + 1 - i ≤ fuel →
      scanDown p i fuel j ≤ j
      ∧ (i ≤ j + 1 → i ≤ scanDown p i fuel j + 1)
      ∧ (∀ k, scanDown p i fuel j < k → k ≤ j → p k = true)
      ∧ (i ≤ scanDown p i fuel j → p (scanDown p i fuel j) = false) := by
  intro fuel
  induction fuel with
  | zero =>
    intro j hf
    refine ⟨Nat.le_refl _, fun h => h, ?_, ?_⟩
    · intro k h1 h2
      simp only [scanDown] at h1
      omega
    · intro h
      simp only [scanDown] at h
      omega
  | succ fuel ih =>
    intro j hf
    by_cases hc : (decide (i ≤ j) && p j) = true
    · have hc2 := hc
      simp only [Bool.and_eq_true, decide_eq_true_eq] at hc2
      have hrec := ih (j - 1) (by omega)
      simp only [scanDown, hc, if_true]
      refine ⟨by omega, fun _ => hrec.2.1 (by omega), ?_, hrec.2.2.2⟩
      intro k h1 h2
      by_cases hk : k = j
      · rw [hk]; exact hc2.2
      · exact hrec.2.2.1 k h1 (by omega)
    · simp only [scanDown, hc]
      refine ⟨Nat.le_refl _, fun h => h, ?_, ?_⟩
      · intro k h1 h2
        simp only [Bool.false_eq_true, if_false] at h1
        omega
      · intro h
        simp only [Bool.false_eq_true, if_false] at h ⊢
        simp only [Bool.and_eq_true, decide_eq_true_eq, not_and] at hc
        simpa using hc h

theorem partitionLoop_spec (a b : Nat) :
    ∀ fuel (d : List α) (i j : Nat), j + 1 - i ≤ fuel →
      a + 1 ≤ i → i ≤ j + 1 → j + 1 ≤ b → b ≤ d.length →
      (∀ k, a + 1 ≤ k → k < i → lessAt less d k a = true) →
      (∀ k, j < k → k < b → lessAt less d k a = false) →
      RangePerm (a + 1) b d (partitionLoop less a fuel d i j).1
      ∧ a ≤ (partitionLoop less a fuel d i j).2
      ∧ (partitionLoop less a fuel d i j).2 < b
      ∧ (∀ k, a + 1 ≤ k → k ≤ (partitionLoop less a fuel d i j).2 →
          lessAt less (partitionLoop less a fuel d i j).1 k a = true)
      ∧ (∀ k, (partitionLoop less a fuel d i j).2 < k → k < b →
          lessAt less (partitionLoop less a fuel d i j).1 k a = false) := by
  intro fuel
  induction fuel with
  | zero =>
    intro d i j hf hai hij hjb hb hlo hhi
    simp only [partitionLoop]
    exact ⟨RangePerm.refl _ _ _, by omega, by omega, fun k h1 h2 => hlo k h1 (by omega), hhi⟩
  | succ fuel ih =>
    intro d i j hf hai hij hjb hb hlo hhi
    have hup := scanUp_spec (fun k => lessAt less d k a) j (j + 1 - i) i (Nat.le_refl _)
    generalize hi1 : scanUp (fun k => lessAt less d k a) j (j + 1 - i) i = i1 at hup
    have hdown := scanDown_spec (fun k => !lessAt less d k a) i1 (by omega) (j + 1 - i1) j
      (Nat.le_refl _)
    generalize hj1 : scanDown (fun k => !lessAt less d k a) i1 (j + 1 - i1) j = j1 at hdown
    obtain ⟨hu1, hu2, hu3, hu4⟩ := hup
    obtain ⟨hd1, hd2, hd3, hd4⟩ := hdown
    have hu2 := hu2 hij
    have hd2 := hd2 hu2
    have hlo1 : ∀ k, a + 1 ≤ k → k < i1 → lessAt less d k a = true := by
      intro k h1 h2
      by_cases hk : k < i
      · exact hlo k h1 hk
      · exact hu3 k (by omega) h2
    have hhi1 : ∀ k, j1 < k → k < b → lessAt less d k a = false := by
      intro k h1 h2
      by_cases hk : j < k
      · exact hhi k hk h2
      · have := hd3 k h1 (by omega)
        simpa using this
    by_cases hc : i1 > j1
    · simp only [partitionLoop, hi1, hj1, hc, if_true]
      exact ⟨RangePerm.refl _ _ _, by omega, by omega,
        fun k h1 h2 => hlo1 k h1 (by omega), hhi1⟩
    · have hle : i1 ≤ j1 := by omega
      have hpi : lessAt less d i1 a = false := hu4 (by omega)
      have hpj : lessAt less d j1 a = true := by
        have := hd4 hle
        simpa using this
      have hne : i1 ≠ j1 := by
        intro h
        rw [h, hpj] at hpi
        exact absurd hpi (by decide)
      have hil : i1 < d.length := by omega
      have hjl : j1 < d.length := by omega
      have hrec := ih (swapAt d i1 j1) (i1 + 1) (j1 - 1) (by omega) (by omega) (by omega)
        (by omega) (by rw [swapAt_length]; exact hb)
        (by
          intro k h1 h2
          by_cases hk : k = i1
          · rw [hk, lessAt_congr less (getElem?_swapAt_left hil hjl)
              (getElem?_swapAt_of_ne d (by omega) (by omega))]
            exact hpj
          · rw [lessAt_congr less (getElem?_swapAt_of_ne d hk (by omega))
              (getElem?_swapAt_of_ne d (by omega) (by omega))]
            exact hlo1 k h1 (by omega))
        (by
          intro k h1 h2
          by_cases hk : k = j1
          · rw [hk, lessAt_congr less (getElem?_swapAt_right hil hjl)
              (getElem?_swapAt_of_ne d (by omega) (by omega))]
            exact hpi
          · rw [lessAt_congr less (getElem?_swapAt_of_ne d (by omega) hk)
              (getElem?_swapAt_of_ne d (by omega) (by omega))]
            exact hhi1 k (by omega) h2)
      simp only [partitionLoop, hi1, hj1, hc, if_false]
      refine ⟨(RangePerm.swap (a + 1) b d ⟨by omega, by omega⟩ ⟨by omega, by omega⟩).trans
        hrec.1, hrec.2.1, hrec.2.2.1, hrec.2.2.2.1, hrec.2.2.2.2⟩

theorem partition_finish (d : List α) (a b j : Nat) (haj : a ≤ j) (hjb : j < b)
    (hb : b ≤ d.length)
    (hlo : ∀ k, a + 1 ≤ k → k ≤ j → lessAt less d k a = true)
    (hhi : ∀ k, j < k → k < b → lessAt less d k a = false) :
    (∀ k, a ≤ k → k < j → lessAt less (swapAt d j a) k j = true)
    ∧ (∀ k, j < k → k < b → lessAt less (swapAt d j a) k j = false) := by
  have hjl : j < d.length := by omega
  have hal : a < d.length := by omega
  refine ⟨?_, ?_⟩
  · intro k h1 h2
    by_cases hk : k = a
    · rw [hk, lessAt_congr less (getElem?_swapAt_right hjl hal) (getElem?_swapAt_left hjl hal)]
      exact hlo j (by omega) (Nat.le_refl _)
    · rw [lessAt_congr less (getElem?_swapAt_of_ne d (by omega) hk)
        (getElem?_swapAt_left hjl hal)]
      exact hlo k (by omega) (by omega)
  · intro k h1 h2
    rw [lessAt_congr less (getElem?_swapAt_of_ne d (by omega) (by omega))
      (getElem?_swapAt_left hjl hal)]
    exact hhi k h1 h2

theorem partition_func_spec (d : List α) (a b pivot : Nat) (hap : a ≤ pivot)
    (hpb : pivot < b) (hb : b ≤ d.length) :
    RangePerm a b d (partition_func less d a b pivot).1
    ∧ a ≤ (partition_func less d a b pivot).2.1
    ∧ (partition_func less d a b pivot).2.1 < b
    ∧ (∀ k, a ≤ k → k < (partition_func less d a b pivot).2.1 →
        lessAt less (partition_func less d a b pivot).1 k
          (partition_func less d a b pivot).2.1 = true)
    ∧ (∀ k, (partition_func less d a b pivot).2.1 < k → k < b →
        lessAt less (partition_func less d a b pivot).1 k
          (partition_func less d a b pivot).2.1 = false) := by
  have hlen1 : (swapAt d a pivot).length = d.length := swapAt_length _ _ _
  have hrp1 : RangePerm a b d (swapAt d a pivot) :=
    RangePerm.swap a b d ⟨Nat.le_refl _, by omega⟩ ⟨hap, hpb⟩
  generalize hd1 : swapAt d a pivot = d1 at hlen1 hrp1
  have hup := scanUp_spec (fun k => lessAt less d1 k a) (b - 1) (b - a) (a + 1) (by omega)
  generalize hi0 : scanUp (fun k => lessAt less d1 k a) (b - 1) (b - a) (a + 1) = i0 at hup
  have hdown := scanDown_spec (fun k => !lessAt less d1 k a) i0 (by omega) (b - a) (b - 1)
    (by omega)
  generalize hj0 : scanDown (fun k => !lessAt less d1 k a) i0 (b - a) (b - 1) = j0 at hdown
  obtain ⟨hu1, hu2, hu3, hu4⟩ := hup
  obtain ⟨hd1', hd2, hd3, hd4⟩ := hdown
  have hu2 := hu2 (by omega)
  have hd2 := hd2 (by omega)
  have hlo1 : ∀ k, a + 1 ≤ k → k < i0 → lessAt less d1 k a = true := hu3
  have hhi1 : ∀ k, j0 < k → k < b → lessAt less d1 k a = false := by
    intro k h1 h2
    have := hd3 k h1 (by omega)
    simpa using this
  by_cases hc : i0 > j0
  · simp only [partition_func, hd1, hi0, hj0, hc, if_true]
    have hfin := partition_finish less d1 a b j0 (by omega) (by omega) (by omega)
      (fun k h1 h2 => hlo1 k h1 (by omega)) hhi1
    exact ⟨hrp1.trans (RangePerm.swap a b d1 ⟨by omega, by omega⟩ ⟨Nat.le_refl _, by omega⟩),
      by omega, by omega, hfin.1, hfin.2⟩
  · have hle : i0 ≤ j0 := by omega
    have hpi : lessAt less d1 i0 a = false := hu4 (by omega)
    have hpj : lessAt less d1 j0 a = true := by
      have := hd4 hle
      simpa using this
    have hne : i0 ≠ j0 := by
      intro h
      rw [h, hpj] at hpi
      exact absurd hpi (by decide)
    have hil : i0 < d1.length := by omega
    have hjl : j0 < d1.length := by omega
    have hloop := partitionLoop_spec less a b (b - a) (swapAt d1 i0 j0) (i0 + 1) (j0 - 1)
      (by omega) (by omega) (by omega) (by omega) (by rw [swapAt_length]; omega)
      (by
        intro k h1 h2
        by_cases hk : k = i0
        · rw [hk, lessAt_congr less (getElem?_swapAt_left hil hjl)
            (getElem?_swapAt_of_ne d1 (by omega) (by omega))]
          exact hpj
        · rw [lessAt_congr less (getElem?_swapAt_of_ne d1 hk (by omega))
            (getElem?_swapAt_of_ne d1 (by omega) (by omega))]
          exact hlo1 k h1 (by omega))
      (by
        intro k h1 h2
        by_cases hk : k = j0
        · rw [hk, lessAt_congr less (getElem?_swapAt_right hil hjl)
            (getElem?_swapAt_of_ne d1 (by omega) (by omega))]
          exact hpi
        · rw [lessAt_congr less (getElem?_swapAt_of_ne d1 (by omega) hk)
            (getElem?_swapAt_of_ne d1 (by omega) (by omega))]
          exact hhi1 k (by omega) h2)
    generalize hr : partitionLoop less a (b - a) (swapAt d1 i0 j0) (i0 + 1) (j0 - 1) = r
      at hloop
    obtain ⟨hr1, hr2, hr3, hr4, hr5⟩ := hloop
    have hrlen : r.1.length = d1.length := by
      rw [hr1.length_eq, swapAt_length]
    have hfin := partition_finish less r.1 a b r.2 hr2 hr3 (by omega) hr4 hr5
    simp only [partition_func, hd1, hi0, hj0, hc, if_false, hr]
    refine ⟨?_, hr2, hr3, hfin.1, hfin.2⟩
    exact (hrp1.trans (RangePerm.swap a b d1 ⟨by omega, by omega⟩ ⟨by omega, by omega⟩)).trans
      ((hr1.mono (by omega) (Nat.le_refl _)).trans
        (RangePerm.swap a b r.1 ⟨hr2, hr3⟩ ⟨Nat.le_refl _, by omega⟩))

end Partition

section PartitionEqual

variable {α : Type} (less : α → α → Bool)

theorem partitionEqualLoop_spec (a b : Nat) :
    ∀ fuel (d : List α) (i j : Nat), j + 1 - i ≤ fuel →
      a + 1 ≤ i → i ≤ j + 1 → j + 1 ≤ b → b ≤ d.length →
      (∀ k, a + 1 ≤ k → k < i → lessAt less d a k = false) →
      (∀ k, j < k → k < b → lessAt less d a k = true) →
      RangePerm (a + 1) b d (partitionEqualLoop less a fuel d i j).1
      ∧ a + 1 ≤ (partitionEqualLoop less a fuel d i j).2
      ∧ (partitionEqualLoop less a fuel d i j).2 ≤ b
      ∧ (∀ k, a + 1 ≤ k → k < (partitionEqualLoop less a fuel d i j).2 →
          lessAt less (partitionEqualLoop less a fuel d i j).1 a k = false)
      ∧ (∀ k, (partitionEqualLoop less a fuel d i j).2 ≤ k → k < b →
          lessAt less (partitionEqualLoop less a fuel d i j).1 a k = true) := by
  intro fuel
  induction fuel with
  | zero =>
    intro d i j hf hai hij hjb hb hlo hhi
    simp only [partitionEqualLoop]
    exact ⟨RangePerm.refl _ _ _, hai, by omega, hlo, fun k h1 h2 => hhi k (by omega) h2⟩
  | succ fuel ih =>
    intro d i j hf hai hij hjb hb hlo hhi
    have hup := scanUp_spec (fun k => !lessAt less d a k) j (j + 1 - i) i (Nat.le_refl _)
    generalize hi1 : scanUp (fun k => !lessAt less d a k) j (j + 1 - i) i = i1 at hup
    have hdown := scanDown_spec (fun k => lessAt less d a k) i1 (by omega) (j + 1 - i1) j
      (Nat.le_refl _)
    generalize hj1 : scanDown (fun k => lessAt less d a k) i1 (j + 1 - i1) j = j1 at hdown
    obtain ⟨hu1, hu2, hu3, hu4⟩ := hup
    obtain ⟨hd1, hd2, hd3, hd4⟩ := hdown
    have hu2 := hu2 hij
    have hd2 := hd2 hu2
    have hlo1 : ∀ k, a + 1 ≤ k → k < i1 → lessAt less d a k = false := by
      intro k h1 h2
      by_cases hk : k < i
      · exact hlo k h1 hk
      · have := hu3 k (by omega) h2
        simpa using this
    have hhi1 : ∀ k, j1 < k → k < b → lessAt less d a k = true := by
      intro k h1 h2
      by_cases hk : j < k
      · exact hhi k hk h2
      · exact hd3 k h1 (by omega)
    by_cases hc : i1 > j1
    · simp only [partitionEqualLoop, hi1, hj1, hc, if_true]
      exact ⟨RangePerm.refl _ _ _, by omega, by omega, hlo1,
        fun k h1 h2 => hhi1 k (by omega) h2⟩
    · have hle : i1 ≤ j1 := by omega
      have hpi : lessAt less d a i1 = true := by
        have := hu4 (by omega)
        simpa using this
      have hpj : lessAt less d a j1 = false := hd4 hle
      have hne : i1 ≠ j1 := by
        intro h
        rw [h, hpj] at hpi
        exact absurd hpi (by decide)
      have hil : i1 < d.length := by omega
      have hjl : j1 < d.length := by omega
      have hrec := ih (swapAt d i1 j1) (i1 + 1) (j1 - 1) (by omega) (by omega) (by omega)
        (by omega) (by rw [swapAt_length]; exact hb)
        (by
          intro k h1 h2
          by_cases hk : k = i1
          · rw [hk, lessAt_congr less (getElem?_swapAt_of_ne d (by omega) (by omega))
              (getElem?_swapAt_left hil hjl)]
            exact hpj
          · rw [lessAt_congr less (getElem?_swapAt_of_ne d (by omega) (by omega))
              (getElem?_swapAt_of_ne d hk (by omega))]
            exact hlo1 k h1 (by omega))
        (by
          intro k h1 h2
          by_cases hk : k = j1
          · rw [hk, lessAt_congr less (getElem?_swapAt_of_ne d (by omega) (by omega))
              (getElem?_swapAt_right hil hjl)]
            exact hpi
          · rw [lessAt_congr less (getElem?_swapAt_of_ne d (by omega) (by omega))
              (getElem?_swapAt_of_ne d (by omega) hk)]
            exact hhi1 k (by omega) h2)
      simp only [partitionEqualLoop, hi1, hj1, hc, if_false]
      refine ⟨(RangePerm.swap (a + 1) b d ⟨by omega, by omega⟩ ⟨by omega, by omega⟩).trans
        hrec.1, hrec.2.1, hrec.2.2.1, hrec.2.2.2.1, hrec.2.2.2.2⟩

theorem partitionEqual_func_spec (d : List α) (a b pivot : Nat) (hap : a ≤ pivot)
    (hpb : pivot < b) (hb : b ≤ d.length) :
    RangePerm a b d (partitionEqual_func less d a b pivot).1
    ∧ a + 1 ≤ (partitionEqual_func less d a b pivot).2
    ∧ (partitionEqual_func less d a b pivot).2 ≤ b
    ∧ (partitionEqual_func less d a b pivot).1[a]? = d[pivot]?
    ∧ (∀ k, a + 1 ≤ k → k < (partitionEqual_func less d a b pivot).2 →
        lessAt less (partitionEqual_func less d a b pivot).1 a k = false)
    ∧ (∀ k, (partitionEqual_func less d a b pivot).2 ≤ k → k < b →
        lessAt less (partitionEqual_func less d a b pivot).1 a k = true) := by
  have hal : a < d.length := by omega
  have hpl : pivot < d.length := by omega
  have hloop := partitionEqualLoop_spec less a b (b - a + 1) (swapAt d a pivot) (a + 1) (b - 1)
    (by omega) (Nat.le_refl _) (by omega) (by omega) (by rw [swapAt_length]; exact hb)
    (fun k h1 h2 => by omega) (fun k h1 h2 => by omega)
  unfold partitionEqual_func
  generalize partitionEqualLoop less a (b - a + 1) (swapAt d a pivot) (a + 1) (b - 1) = r
    at hloop
  obtain ⟨h1, h2, h3, h4, h5⟩ := hloop
  refine ⟨(RangePerm.swap a b d ⟨Nat.le_refl _, by omega⟩ ⟨hap, hpb⟩).trans
    (h1.mono (by omega) (Nat.le_refl _)), h2, h3, ?_, h4, h5⟩
  rw [h1.2 a (Or.inl (by omega)), getElem?_swapAt_left hal hpl]

end PartitionEqual

/-! ## Lemmas on the pattern breaker, the pivot choice and the reversal -/

section Pivot

variable {α : Type} (less : α → α → Bool)

theorem reverseRangeLoop_rangePerm (a b : Nat) :
    ∀ fuel i j (d : List α), a ≤ i → j < b → RangePerm a b d (reverseRangeLoop fuel i j d) := by
  intro fuel
  induction fuel with
  | zero => intro i j d _ _; exact RangePerm.refl _ _ _
  | succ fuel ih =>
    intro i j d hi hj
    by_cases hc : i < j
    · simp only [reverseRangeLoop, hc, if_true]
      exact (RangePerm.swap a b d ⟨hi, by omega⟩ ⟨by omega, hj⟩).trans
        (ih (i + 1) (j - 1) _ (by omega) (by omega))
    · simp only [reverseRangeLoop, hc, if_false]
      exact RangePerm.refl _ _ _

theorem reverseRange_func_rangePerm (d : List α) (a b : Nat) (hab : a < b) :
    RangePerm a b d (reverseRange_func d a b) :=
  reverseRangeLoop_rangePerm a b _ _ _ d (Nat.le_refl _) (by omega)

theorem two_pow_bitsLenLoop_le : ∀ fuel n, n ≤ fuel → 1 ≤ n → 2 ^ bitsLenLoop fuel n ≤ 2 * n := by
  intro fuel
  induction fuel with
  | zero => intro n h1 h2; omega
  | succ fuel ih =>
    intro n h1 h2
    have hn : n ≠ 0 := by omega
    simp only [bitsLenLoop, hn, if_false]
    by_cases h : n / 2 = 0
    · have hb : bitsLenLoop fuel (n / 2) = 0 := by
        rw [h]
        cases fuel <;> simp [bitsLenLoop]
      rw [hb]
      omega
    · have := ih (n / 2) (by omega) (by omega)
      rw [Nat.pow_succ]
      omega

theorem two_pow_bitsLen_le (n : Nat) (h : 1 ≤ n) : 2 ^ bitsLen n ≤ 2 * n :=
  two_pow_bitsLenLoop_le n n (Nat.le_refl _) h

theorem breakPatternsLoop_rangePerm (next : Nat → Nat) (a b length idx : Nat)
    (hl : length = b - a)
    (hl1 : 1 ≤ length) (h1 : a + 1 ≤ idx) (h2 : idx + 1 < b) :
    ∀ rounds i random (d : List α), i + rounds ≤ 3 →
      RangePerm a b d (breakPatternsLoop next a length idx rounds i random d) := by
  intro rounds
  induction rounds with
  | zero => intro i random d _; exact RangePerm.refl _ _ _
  | succ rounds ih =>
    intro i random d hi
    simp only [breakPatternsLoop]
    have hpow := two_pow_bitsLen_le length hl1
    have hpos : 0 < 2 ^ bitsLen length := Nat.two_pow_pos _
    have hand : next random &&& (2 ^ bitsLen length - 1) < 2 ^ bitsLen length :=
      Nat.and_lt_two_pow _ (by omega)
    refine (RangePerm.swap a b d ⟨by omega, by omega⟩ ⟨by omega, ?_⟩).trans
      (ih (i + 1) _ _ (by omega))
    split <;> omega

theorem breakPatterns_func_rangePerm (next : Nat → Nat) (d : List α) (a b : Nat) :
    RangePerm a b d (breakPatterns_func next d a b) := by
  unfold breakPatterns_func
  by_cases h : b - a ≥ 8
  · simp only [h, if_true]
    have h4 : 2 ≤ (b - a) / 4 := by omega
    exact breakPatternsLoop_rangePerm next a b (b - a) _ rfl (by omega) (by omega) (by omega)
      3 0 _ d (by omega)
  · simp only [h, if_false]
    exact RangePerm.refl _ _ _

theorem order2_func_mem (d : List α) (x y s : Nat) :
    ((order2_func less d x y s).1 = x ∧ (order2_func less d x y s).2.1 = y)
    ∨ ((order2_func less d x y s).1 = y ∧ (order2_func less d x y s).2.1 = x) := by
  unfold order2_func
  split
  · exact Or.inr ⟨rfl, rfl⟩
  · exact Or.inl ⟨rfl, rfl⟩

theorem median_func_mem (d : List α) (x y z s : Nat) :
    (median_func less d x y z s).1 = x ∨ (median_func less d x y z s).1 = y
    ∨ (median_func less d x y z s).1 = z := by
  have key : ∀ r1 r2 r3 : Nat × Nat × Nat,
      (r1.1 = x ∧ r1.2.1 = y ∨ r1.1 = y ∧ r1.2.1 = x) →
      (r2.1 = r1.2.1 ∧ r2.2.1 = z ∨ r2.1 = z ∧ r2.2.1 = r1.2.1) →
      (r3.1 = r1.1 ∧ r3.2.1 = r2.1 ∨ r3.1 = r2.1 ∧ r3.2.1 = r1.1) →
      r3.2.1 = x ∨ r3.2.1 = y ∨ r3.2.1 = z := by
    intro r1 r2 r3 h1 h2 h3
    rcases h1 with h1 | h1 <;> rcases h2 with h2 | h2 <;> rcases h3 with h3 | h3 <;> omega
  exact key _ _ _ (order2_func_mem less d x y s) (order2_func_mem less d _ z _)
    (order2_func_mem less d _ _ _)

theorem medianAdjacent_func_bounds (d : List α) (x s : Nat) :
    x - 1 ≤ (medianAdjacent_func less d x s).1
    ∧ (medianAdjacent_func less d x s).1 ≤ x + 1 := by
  unfold medianAdjacent_func
  rcases median_func_mem less d (x - 1) x (x + 1) s with h | h | h <;> rw [h] <;> omega

theorem choosePivotIndex_bounds (d : List α) (a b : Nat) (h : 8 ≤ b - a) :
    a ≤ (choosePivotIndex less d a b).1 ∧ (choosePivotIndex less d a b).1 < b := by
  have h4 : 2 ≤ (b - a) / 4 := by omega
  have h5 : 4 * ((b - a) / 4) ≤ b - a := by omega
  unfold choosePivotIndex
  simp only [h, if_true, ge_iff_le]
  by_cases h50 : 50 ≤ b - a
  · simp only [h50, if_true]
    have hi := medianAdjacent_func_bounds less d (a + (b - a) / 4 * 1) 0
    have hj := medianAdjacent_func_bounds less d (a + (b - a) / 4 * 2)
      (medianAdjacent_func less d (a + (b - a) / 4 * 1) 0).2
    have hk := medianAdjacent_func_bounds less d (a + (b - a) / 4 * 3)
      (medianAdjacent_func less d (a + (b - a) / 4 * 2)
        (medianAdjacent_func less d (a + (b - a) / 4 * 1) 0).2).2
    rcases median_func_mem less d
      (medianAdjacent_func less d (a + (b - a) / 4 * 1) 0).1
      (medianAdjacent_func less d (a + (b - a) / 4 * 2)
        (medianAdjacent_func less d (a + (b - a) / 4 * 1) 0).2).1
      (medianAdjacent_func less d (a + (b - a) / 4 * 3)
        (medianAdjacent_func less d (a + (b - a) / 4 * 2)
          (medianAdjacent_func less d (a + (b - a) / 4 * 1) 0).2).2).1
      (medianAdjacent_func less d (a + (b - a) / 4 * 3)
        (medianAdjacent_func less d (a + (b - a) / 4 * 2)
          (medianAdjacent_func less d (a + (b - a) / 4 * 1) 0).2).2).2
      with hm | hm | hm <;> rw [hm] <;> omega
  · simp only [h50, if_false]
    rcases median_func_mem less d (a + (b - a) / 4 * 1) (a + (b - a) / 4 * 2)
      (a + (b - a) / 4 * 3) 0 with hm | hm | hm <;> rw [hm] <;> omega

theorem choosePivot_func_fst (d : List α) (a b : Nat) :
    (choosePivot_func less d a b).1 = (choosePivotIndex less d a b).1 := by
  unfold choosePivot_func
  simp only
  split
  · rfl
  · split <;> rfl

end Pivot

/-! ## Lemmas on the partial insertion sort -/

section PartialInsertion

variable {α : Type} (less : α → α → Bool)

theorem BoundedBelow.of_rangePerm {d d2 : List α} {a b : Nat} (h : BoundedBelow less d a b)
    (hr : RangePerm a b d d2) : BoundedBelow less d2 a b := by
  intro k x p ha hak hkb hx hp
  rw [hr.2 (a - 1) (Or.inl (by omega))] at hp
  exact hr.forall_range (fun x => less x p = false)
    (fun k x h1 h2 h3 => h k x p ha h1 h2 h3 hp) k x hak hkb hx

theorem getElem?_isSome_of_lt {d : List α} {k : Nat} (h : k < d.length) :
    ∃ x, d[k]? = some x :=
  ⟨d[k], List.getElem?_eq_getElem h⟩

theorem scanSorted_spec (d : List α) (b : Nat) :
    ∀ fuel i, b - i ≤ fuel →
      i ≤ scanSorted less d b fuel i
      ∧ (i ≤ b → scanSorted less d b fuel i ≤ b)
      ∧ (∀ k, i ≤ k → k < scanSorted less d b fuel i → lessAt less d k (k - 1) = false)
      ∧ (scanSorted less d b fuel i < b →
          lessAt less d (scanSorted less d b fuel i) (scanSorted less d b fuel i - 1) = true) := by
  intro fuel
  induction fuel with
  | zero =>
    intro i hf
    simp only [scanSorted]
    exact ⟨Nat.le_refl _, fun h => h, fun k h1 h2 => by omega, fun h => by omega⟩
  | succ fuel ih =>
    intro i hf
    by_cases hc : (decide (i < b) && !lessAt less d i (i - 1)) = true
    · have hrec := ih (i + 1) (by omega)
      simp only [scanSorted, hc, if_true]
      simp only [Bool.and_eq_true, decide_eq_true_eq, Bool.not_eq_true'] at hc
      refine ⟨by omega, fun _ => hrec.2.1 (by omega), ?_, hrec.2.2.2⟩
      intro k h1 h2
      by_cases hk : k = i
      · rw [hk]; exact hc.2
      · exact hrec.2.2.1 k (by omega) h2
    · simp only [scanSorted, hc, Bool.false_eq_true, if_false]
      refine ⟨Nat.le_refl _, fun h => h, fun k h1 h2 => by omega, ?_⟩
      intro h
      simp only [Bool.and_eq_true, decide_eq_true_eq, Bool.not_eq_true', not_and] at hc
      simpa using hc h

theorem SortedOn.extend
    (hneg : ∀ a b c, less a b = false → less b c = false → less a c = false)
    {d : List α} {a i r : Nat} (h : SortedOn less d a i) (hai : a + 1 ≤ i)
    (hr : r ≤ d.length)
    (hadj : ∀ k, i ≤ k → k < r → lessAt less d k (k - 1) = false) : SortedOn less d a r := by
  have aux : ∀ q, ∀ p x y, a ≤ p → p < q → q < r → d[p]? = some x → d[q]? = some y →
      less y x = false := by
    intro q
    induction q using Nat.strong_induction_on with
    | _ q ih =>
      intro p x y hap hpq hqr hx hy
      by_cases hqi : q < i
      · exact h p q x y hap hpq hqi hx hy
      · obtain ⟨z, hz⟩ := getElem?_isSome_of_lt (d := d) (k := q - 1) (by omega)
        have hadj1 := hadj q (by omega) hqr
        rw [lessAt_eq less hy hz] at hadj1
        by_cases hp : p = q - 1
        · rw [hp, hz] at hx
          cases hx
          exact hadj1
        · exact hneg y z x hadj1 (ih (q - 1) (by omega) p x z hap (by omega) (by omega) hx hz)
  intro p q x y hap hpq hqr hx hy
  exact aux q p x y hap hpq hqr hx hy

theorem shiftLeft_spec (hasymm : ∀ a b, less a b = true → less b a = false)
    (hneg : ∀ a b c, less a b = false → less b c = false → less a c = false)
    (a b r : Nat) (hrb : r ≤ b) :
    ∀ j (d : List α), a ≤ j → j < r → b ≤ d.length → BoundedBelow less d a b →
      (∀ p q x y, a ≤ p → p < q → q < r → q ≠ j → d[p]? = some x → d[q]? = some y →
        less y x = false) →
      RangePerm a b d (shiftLeft less j d) ∧ SortedOn less (shiftLeft less j d) a r := by
  intro j
  induction j with
  | zero =>
    intro d _ _ _ _ hex
    simp only [shiftLeft]
    refine ⟨RangePerm.refl _ _ _, ?_⟩
    intro p q x y hap hpq hqr hx hy
    exact hex p q x y hap hpq hqr (by omega) hx hy
  | succ j ih =>
    intro d haj hjr hb hbb hex
    obtain ⟨u, hu⟩ := getElem?_isSome_of_lt (d := d) (k := j + 1) (by omega)
    obtain ⟨v, hv⟩ := getElem?_isSome_of_lt (d := d) (k := j) (by omega)
    have hlt : lessAt less d (j + 1) j = less u v := lessAt_eq less hu hv
    by_cases hc : less u v = true
    · have haj2 : a ≤ j := by
        by_contra hcon
        have ha : a = j + 1 := by omega
        have := hbb (j + 1) u v (by omega) (by omega) (by omega) hu (by rw [ha]; simpa using hv)
        rw [hc] at this
        exact absurd this (by decide)
      have hjl : j < d.length := by omega
      have hj1l : j + 1 < d.length := by omega
      have hsw : RangePerm a b d (swapAt d (j + 1) j) :=
        RangePerm.swap a b d ⟨by omega, by omega⟩ ⟨haj2, by omega⟩
      have hrec := ih (swapAt d (j + 1) j) haj2 (by omega) (by rw [swapAt_length]; exact hb)
        (hbb.of_rangePerm less hsw)
        (by
          intro p q x y hap hpq hqr hqj hx hy
          by_cases hq1 : q = j + 1
          · rw [hq1, getElem?_swapAt_left hj1l hjl, hv] at hy
            cases hy
            by_cases hpj : p = j
            · rw [hpj, getElem?_swapAt_right hj1l hjl, hu] at hx
              cases hx
              exact hasymm u v hc
            · rw [getElem?_swapAt_of_ne d (by omega) hpj] at hx
              exact hex p j x v hap (by omega) (by omega) (by omega) hx hv
          · rw [getElem?_swapAt_of_ne d hq1 hqj] at hy
            by_cases hp1 : p = j + 1
            · rw [hp1, getElem?_swapAt_left hj1l hjl, hv] at hx
              cases hx
              exact hex j q v y haj2 (by omega) hqr hq1 hv hy
            · by_cases hpj : p = j
              · rw [hpj, getElem?_swapAt_right hj1l hjl, hu] at hx
                cases hx
                exact hex (j + 1) q u y (by omega) (by omega) hqr hq1 hu hy
              · rw [getElem?_swapAt_of_ne d hp1 hpj] at hx
                exact hex p q x y hap hpq hqr hq1 hx hy)
      have hcond : (!lessAt less d (j + 1) j) = false := by rw [hlt, hc]; rfl
      simp only [shiftLeft, hcond, Bool.false_eq_true, if_false]
      exact ⟨hsw.trans hrec.1, hrec.2⟩
    · have hc2 : less u v = false := by simpa using hc
      have hcond : (!lessAt less d (j + 1) j) = true := by rw [hlt, hc2]; rfl
      simp only [shiftLeft, hcond, if_true]
      refine ⟨RangePerm.refl _ _ _, ?_⟩
      intro p q x y hap hpq hqr hx hy
      by_cases hq1 : q = j + 1
      · rw [hq1, hu] at hy
        cases hy
        by_cases hpj : p = j
        · rw [hpj, hv] at hx
          cases hx
          exact hc2
        · exact hneg _ v x hc2 (hex p j x v hap (by omega) (by omega) (by omega) hx hv)
      · exact hex p q x y hap hpq hqr hq1 hx hy

theorem shiftRight_rangePerm (r b : Nat) :
    ∀ fuel j (d : List α), r + 1 ≤ j → RangePerm r b d (shiftRight less b fuel j d) := by
  intro fuel
  induction fuel with
  | zero => intro j d _; exact RangePerm.refl _ _ _
  | succ fuel ih =>
    intro j d hj
    simp only [shiftRight]
    split
    · split
      · exact RangePerm.refl _ _ _
      · exact (RangePerm.swap r b d ⟨by omega, by omega⟩ ⟨by omega, by omega⟩).trans
          (ih (j + 1) _ (by omega))
    · exact RangePerm.refl _ _ _

theorem partialInsertionLoop_spec (hasymm : ∀ a b, less a b = true → less b a = false)
    (hneg : ∀ a b c, less a b = false → less b c = false → less a c = false)
    (a b : Nat) :
    ∀ steps i (d : List α), a + 1 ≤ i → i ≤ b → b ≤ d.length → BoundedBelow less d a b →
      SortedOn less d a i →
      RangePerm a b d (partialInsertionLoop less a b steps i d).1
      ∧ ((partialInsertionLoop less a b steps i d).2 = true →
          SortedOn less (partialInsertionLoop less a b steps i d).1 a b) := by
  intro steps
  induction steps with
  | zero =>
    intro i d _ _ _ _ _
    simp only [partialInsertionLoop]
    exact ⟨RangePerm.refl _ _ _, fun h => absurd h (by decide)⟩
  | succ steps ih =>
    intro i d hai hib hb hbb hs
    have hscan := scanSorted_spec less d b (b - i) i (Nat.le_refl _)
    generalize hi1 : scanSorted less d b (b - i) i = i1 at hscan
    obtain ⟨h1, h2, h3, h4⟩ := hscan
    have h2 := h2 hib
    have hs1 : SortedOn less d a i1 := hs.extend less hneg hai (by omega) h3
    simp only [partialInsertionLoop, hi1]
    by_cases hend : i1 = b
    · simp only [hend, if_true]
      rw [hend] at hs1
      exact ⟨RangePerm.refl _ _ _, fun _ => hs1⟩
    · simp only [hend, if_false]
      by_cases hshort : b - a < 50
      · simp only [hshort, if_true]
        exact ⟨RangePerm.refl _ _ _, fun h => absurd h (by decide)⟩
      · simp only [hshort, if_false]
        have hi1l : i1 < d.length := by omega
        have hi0l : i1 - 1 < d.length := by omega
        have hsw : RangePerm a b d (swapAt d i1 (i1 - 1)) :=
          RangePerm.swap a b d ⟨by omega, by omega⟩ ⟨by omega, by omega⟩
        generalize hd1 : swapAt d i1 (i1 - 1) = d1 at hsw
        have hlen1 : d1.length = d.length := hsw.length_eq
        have hbb1 : BoundedBelow less d1 a b := hbb.of_rangePerm less hsw
        -- the smaller element goes left
        have hleft : RangePerm a b d1 (if i1 - a ≥ 2 then shiftLeft less (i1 - 1) d1 else d1)
            ∧ SortedOn less (if i1 - a ≥ 2 then shiftLeft less (i1 - 1) d1 else d1) a i1 := by
          by_cases hge : i1 - a ≥ 2
          · simp only [hge, if_true]
            refine shiftLeft_spec less hasymm hneg a b i1 (by omega) (i1 - 1) d1 (by omega)
              (by omega) (by omega) hbb1 ?_
            intro p q x y hap hpq hqr hqj hx hy
            rw [← hd1, getElem?_swapAt_of_ne d (by omega) (by omega)] at hx hy
            exact hs1 p q x y hap hpq (by omega) hx hy
          · simp only [hge, if_false]
            exact ⟨RangePerm.refl _ _ _, SortedOn.of_small less d1 a i1 (by omega)⟩
        generalize hd2 : (if i1 - a ≥ 2 then shiftLeft less (i1 - 1) d1 else d1) = d2 at hleft
        obtain ⟨hl1, hl2⟩ := hleft
        have hright : RangePerm i1 b d2
            (if b - i1 ≥ 2 then shiftRight less b (b - i1) (i1 + 1) d2 else d2) := by
          split
          · exact shiftRight_rangePerm less i1 b _ _ d2 (Nat.le_refl _)
          · exact RangePerm.refl _ _ _
        generalize hd3 : (if b - i1 ≥ 2 then shiftRight less b (b - i1) (i1 + 1) d2 else d2) = d3
          at hright
        have hall : RangePerm a b d d3 :=
          (hsw.trans hl1).trans (hright.mono (by omega) (Nat.le_refl _))
        have hs3 : SortedOn less d3 a i1 :=
          hl2.congr less (fun k _ hk => hright.2 k (Or.inl hk))
        have hrec := ih i1 d3 (by omega) (by omega) (by rw [hall.length_eq]; exact hb)
          (hbb.of_rangePerm less hall) hs3
        exact ⟨hall.trans hrec.1, hrec.2⟩

theorem partialInsertionSort_func_spec
    (hasymm : ∀ a b, less a b = true → less b a = false)
    (hneg : ∀ a b c, less a b = false → less b c = false → less a c = false)
    (d : List α) (a b : Nat) (hab : a < b) (hb : b ≤ d.length)
    (hbb : BoundedBelow less d a b) :
    RangePerm a b d (partialInsertionSort_func less d a b).1
    ∧ ((partialInsertionSort_func less d a b).2 = true →
        SortedOn less (partialInsertionSort_func less d a b).1 a b) :=
  partialInsertionLoop_spec less hasymm hneg a b 5 (a + 1) d (Nat.le_refl _) (by omega) hb hbb
    (SortedOn.of_small less d a (a + 1) (Nat.le_refl _))

end PartialInsertion

/-! ## Lemmas on the heap sort -/

section Heap

variable {α : Type} (less : α → α → Bool)

theorem lessAt_asymm (hasymm : ∀ a b, less a b = true → less b a = false) (d : List α)
    {i j : Nat} (h : lessAt less d i j = true) : lessAt less d j i = false := by
  unfold lessAt at h ⊢
  cases hi : d[i]? with
  | none => simp [hi] at h
  | some x =>
    cases hj : d[j]? with
    | none => simp [hi, hj] at h
    | some y =>
      simp only [hi, hj] at h ⊢
      exact hasymm x y h

theorem lessAt_negTrans
    (hneg : ∀ a b c, less a b = false → less b c = false → less a c = false) (d : List α)
    {i j k : Nat} (hj : j < d.length) (h1 : lessAt less d i j = false)
    (h2 : lessAt less d j k = false) : lessAt less d i k = false := by
  obtain ⟨y, hy⟩ := getElem?_isSome_of_lt hj
  unfold lessAt at h1 h2 ⊢
  cases hi : d[i]? with
  | none => rfl
  | some x =>
    cases hk : d[k]? with
    | none => rfl
    | some z =>
      simp only [hi, hy, hk] at h1 h2 ⊢
      exact hneg x y z h1 h2

theorem lessAt_irrefl (hasymm : ∀ a b, less a b = true → less b a = false) (d : List α)
    (i : Nat) : lessAt less d i i = false := by
  cases h : lessAt less d i i with
  | false => rfl
  | true => rw [lessAt_asymm less hasymm d h] at h; exact absurd h (by decide)

theorem sortedOn_of_lessAt {d : List α} {a b : Nat}
    (h : ∀ i j, a ≤ i → i < j → j < b → lessAt less d j i = false) : SortedOn less d a b := by
  intro i j x y hai hij hjb hx hy
  have := h i j hai hij hjb
  rw [lessAt_eq less hy hx] at this
  exact this

theorem SortedOn.lessAt_eq_false {d : List α} {a b : Nat} (h : SortedOn less d a b)
    {i j : Nat} (hai : a ≤ i) (hij : i < j) (hjb : j < b) : lessAt less d j i = false := by
  unfold lessAt
  cases hj : d[j]? with
  | none => rfl
  | some y =>
    cases hi : d[i]? with
    | none => rfl
    | some x => exact h i j x y hai hij hjb hi hj

theorem siftDownLoop_spec (hasymm : ∀ a b, less a b = true → less b a = false)
    (hneg : ∀ a b c, less a b = false → less b c = false → less a c = false)
    (hi first root : Nat) :
    ∀ fuel r (d : List α), hi ≤ r + fuel → root ≤ r → first + hi ≤ d.length →
      (∀ n c, root ≤ n → n ≠ r → (c = 2 * n + 1 ∨ c = 2 * n + 2) → c < hi →
        lessAt less d (first + n) (first + c) = false) →
      (∀ n c, root ≤ n → (r = 2 * n + 1 ∨ r = 2 * n + 2) → (c = 2 * r + 1 ∨ c = 2 * r + 2) →
        c < hi → lessAt less d (first + n) (first + c) = false) →
      RangePerm (first + root) (first + hi) d (siftDownLoop less hi first fuel r d)
      ∧ HeapFrom less (siftDownLoop less hi first fuel r d) first root hi := by
  intro fuel
  induction fuel with
  | zero =>
    intro r d hf hr hlen inv1 inv2
    simp only [siftDownLoop]
    refine ⟨RangePerm.refl _ _ _, ?_⟩
    intro n c hn hc hch
    by_cases hnr : n = r
    · omega
    · exact inv1 n c hn hnr hc hch
  | succ fuel ih =>
    intro r d hf hr hlen inv1 inv2
    by_cases hleaf : 2 * r + 1 ≥ hi
    · simp only [siftDownLoop, hleaf, if_true]
      refine ⟨RangePerm.refl _ _ _, ?_⟩
      intro n c hn hc hch
      by_cases hnr : n = r
      · omega
      · exact inv1 n c hn hnr hc hch
    · simp only [siftDownLoop, hleaf, if_false]
      generalize hcs : (if (decide (2 * r + 2 < hi) &&
          lessAt less d (first + (2 * r + 1)) (first + (2 * r + 2))) = true
        then 2 * r + 2 else 2 * r + 1) = cs
      -- facts on the chosen child
      have hcs1 : (cs = 2 * r + 1 ∨ cs = 2 * r + 2) ∧ cs < hi
          ∧ (∀ c, (c = 2 * r + 1 ∨ c = 2 * r + 2) → c < hi → c ≠ cs →
              lessAt less d (first + cs) (first + c) = false) := by
        by_cases hcond : (decide (2 * r + 2 < hi) &&
            lessAt less d (first + (2 * r + 1)) (first + (2 * r + 2))) = true
        · simp only [hcond, if_true] at hcs
          simp only [Bool.and_eq_true, decide_eq_true_eq] at hcond
          subst hcs
          refine ⟨Or.inr rfl, hcond.1, ?_⟩
          intro c hc hch hne
          have hc1 : c = 2 * r + 1 := by omega
          rw [hc1]
          exact lessAt_asymm less hasymm d hcond.2
        · simp only [hcond, Bool.false_eq_true, if_false] at hcs
          subst hcs
          refine ⟨Or.inl rfl, by omega, ?_⟩
          intro c hc hch hne
          have hc2 : c = 2 * r + 2 := by omega
          rw [hc2]
          simp only [Bool.and_eq_true, decide_eq_true_eq, not_and] at hcond
          have := hcond (by omega)
          simpa using this
      obtain ⟨hcs2, hcs3, hcs4⟩ := hcs1
      by_cases hstop : lessAt less d (first + r) (first + cs) = false
      · simp only [hstop, Bool.not_false, if_true]
        refine ⟨RangePerm.refl _ _ _, ?_⟩
        intro n c hn hc hch
        by_cases hnr : n = r
        · subst hnr
          by_cases hccs : c = cs
          · rw [hccs]; exact hstop
          · exact lessAt_negTrans less hneg d (by omega) hstop (hcs4 c hc hch hccs)
        · exact inv1 n c hn hnr hc hch
      · have hgo : lessAt less d (first + r) (first + cs) = true := by simpa using hstop
        simp only [hgo, Bool.not_true, Bool.false_eq_true, if_false]
        have hrl : first + r < d.length := by omega
        have hcl : first + cs < d.length := by omega
        have hrec := ih cs (swapAt d (first + r) (first + cs)) (by omega) (by omega)
          (by rw [swapAt_length]; exact hlen)
          (by
            intro n c hn hncs hc hch
            by_cases hnr : n = r
            · subst hnr
              by_cases hccs : c = cs
              · rw [hccs, lessAt_congr less (getElem?_swapAt_left hrl hcl)
                  (getElem?_swapAt_right hrl hcl)]
                exact lessAt_asymm less hasymm d hgo
              · rw [lessAt_congr less (getElem?_swapAt_left hrl hcl)
                  (getElem?_swapAt_of_ne d (by omega) (by omega))]
                exact hcs4 c hc hch hccs
            · by_cases hcr : c = r
              · rw [hcr, lessAt_congr less (getElem?_swapAt_of_ne d (by omega) (by omega))
                  (getElem?_swapAt_left hrl hcl)]
                exact inv2 n cs hn (by omega) hcs2 hcs3
              · have hccs : c ≠ cs := by omega
                rw [lessAt_congr less (getElem?_swapAt_of_ne d (by omega) (by omega))
                  (getElem?_swapAt_of_ne d (by omega) (by omega))]
                exact inv1 n c hn hnr hc hch)
          (by
            intro n c hn hpar hc hch
            have hnr : n = r := by omega
            subst hnr
            rw [lessAt_congr less (getElem?_swapAt_left hrl hcl)
              (getElem?_swapAt_of_ne d (by omega) (by omega))]
            exact inv1 cs c (by omega) (by omega) hc hch)
        exact ⟨(RangePerm.swap (first + root) (first + hi) d ⟨by omega, by omega⟩
          ⟨by omega, by omega⟩).trans hrec.1, hrec.2⟩

theorem siftDown_func_spec (hasymm : ∀ a b, less a b = true → less b a = false)
    (hneg : ∀ a b c, less a b = false → less b c = false → less a c = false)
    (d : List α) (lo hi first : Nat) (hlen : first + hi ≤ d.length)
    (h : HeapFrom less d first (lo + 1) hi) :
    RangePerm (first + lo) (first + hi) d (siftDown_func less d lo hi first)
    ∧ HeapFrom less (siftDown_func less d lo hi first) first lo hi :=
  siftDownLoop_spec less hasymm hneg hi first lo hi lo d (by omega) (Nat.le_refl _) hlen
    (fun n c hn hne hc hch => h n c (by omega) hc hch)
    (fun n c hn hpar _ _ => by omega)

theorem heapBuild_spec (hasymm : ∀ a b, less a b = true → less b a = false)
    (hneg : ∀ a b c, less a b = false → less b c = false → less a c = false)
    (hi first : Nat) :
    ∀ n (d : List α), first + hi ≤ d.length → HeapFrom less d first n hi →
      RangePerm first (first + hi) d (heapBuild less hi first n d)
      ∧ HeapFrom less (heapBuild less hi first n d) first 0 hi := by
  intro n
  induction n with
  | zero =>
    intro d _ h
    exact ⟨RangePerm.refl _ _ _, h⟩
  | succ n ih =>
    intro d hlen h
    have hs := siftDown_func_spec less hasymm hneg d n hi first hlen h
    have hrec := ih (siftDown_func less d n hi first)
      (by rw [hs.1.length_eq]; exact hlen) hs.2
    simp only [heapBuild]
    exact ⟨(hs.1.mono (by omega) (Nat.le_refl _)).trans hrec.1, hrec.2⟩

theorem heap_root_max (hasymm : ∀ a b, less a b = true → less b a = false)
    (hneg : ∀ a b c, less a b = false → less b c = false → less a c = false)
    (d : List α) (first n : Nat) (hlen : first + n ≤ d.length)
    (h : HeapFrom less d first 0 n) :
    ∀ k, k < n → lessAt less d first (first + k) = false := by
  intro k
  induction k using Nat.strong_induction_on with
  | _ k ih =>
    intro hk
    by_cases hk0 : k = 0
    · rw [hk0]
      exact lessAt_irrefl less hasymm d first
    · have hpar : k = 2 * ((k - 1) / 2) + 1 ∨ k = 2 * ((k - 1) / 2) + 2 := by omega
      have h1 := ih ((k - 1) / 2) (by omega) (by omega)
      have h2 := h ((k - 1) / 2) k (Nat.zero_le _) hpar hk
      exact lessAt_negTrans less hneg d (by omega) h1 h2

theorem heapPop_spec (hasymm : ∀ a b, less a b = true → less b a = false)
    (hneg : ∀ a b c, less a b = false → less b c = false → less a c = false)
    (hi first : Nat) :
    ∀ n (d : List α), n ≤ hi → first + hi ≤ d.length → HeapFrom less d first 0 n →
      SortedOn less d (first + n) (first + hi) →
      (∀ k m, k < n → n ≤ m → m < hi → lessAt less d (first + m) (first + k) = false) →
      RangePerm first (first + hi) d (heapPop less first n d)
      ∧ SortedOn less (heapPop less first n d) first (first + hi) := by
  intro n
  induction n with
  | zero =>
    intro d _ _ _ hs _
    exact ⟨RangePerm.refl _ _ _, hs⟩
  | succ n ih =>
    intro d hn hlen hheap hs hcross
    have hfl : first < d.length := by omega
    have hnl : first + n < d.length := by omega
    have hsw : RangePerm first (first + hi) d (swapAt d first (first + n)) :=
      RangePerm.swap first (first + hi) d ⟨Nat.le_refl _, by omega⟩ ⟨by omega, by omega⟩
    have hmax := heap_root_max less hasymm hneg d first (n + 1) (by omega) hheap
    generalize hd1 : swapAt d first (first + n) = d1 at hsw
    have hlen1 : d1.length = d.length := hsw.length_eq
    have hget0 : d1[first]? = d[first + n]? := by
      rw [← hd1]; exact getElem?_swapAt_left hfl hnl
    have hgetn : d1[first + n]? = d[first]? := by
      rw [← hd1]; exact getElem?_swapAt_right hfl hnl
    have hgeto : ∀ k, k ≠ first → k ≠ first + n → d1[k]? = d[k]? := by
      intro k h1 h2
      rw [← hd1]; exact getElem?_swapAt_of_ne d h1 h2
    have hheap1 : HeapFrom less d1 first 1 n := by
      intro m c hm hc hch
      rw [lessAt_congr less (hgeto _ (by omega) (by omega)) (hgeto _ (by omega) (by omega))]
      exact hheap m c (Nat.zero_le _) hc (by omega)
    have hsift := siftDown_func_spec less hasymm hneg d1 0 n first (by omega) hheap1
    generalize hd2 : siftDown_func less d1 0 n first = d2 at hsift
    obtain ⟨hrp2, hheap2⟩ := hsift
    have hrp2' : RangePerm first (first + n) d1 d2 := by simpa using hrp2
    have hlen2 : d2.length = d.length := by rw [hrp2.length_eq, hlen1]
    have hout2 : ∀ k, first + n ≤ k → d2[k]? = d1[k]? := fun k hk => hrp2'.2 k (Or.inr hk)
    -- the sorted tail grows by the old root
    have hs2 : SortedOn less d2 (first + n) (first + hi) := by
      apply sortedOn_of_lessAt
      intro i j hi1 hij hj
      rw [lessAt_congr less (hout2 j (by omega)) (hout2 i hi1)]
      by_cases hin : i = first + n
      · rw [hin, lessAt_congr less (hgeto j (by omega) (by omega)) hgetn]
        have := hcross 0 (j - first) (by omega) (by omega) (by omega)
        rw [show first + (j - first) = j from by omega, Nat.add_zero] at this
        exact this
      · rw [lessAt_congr less (hgeto j (by omega) (by omega)) (hgeto i (by omega) hin)]
        exact hs.lessAt_eq_false less (by omega) hij hj
    -- every tail element is not less than any heap element
    have hcross2 : ∀ k m, k < n → n ≤ m → m < hi →
        lessAt less d2 (first + m) (first + k) = false := by
      intro k m hk hnm hm
      obtain ⟨y, hy⟩ := getElem?_isSome_of_lt (d := d1) (k := first + m) (by omega)
      obtain ⟨x, hx⟩ := getElem?_isSome_of_lt (d := d2) (k := first + k) (by omega)
      have hy2 : d2[first + m]? = some y := by rw [hout2 _ (by omega)]; exact hy
      rw [lessAt_eq less hy2 hx]
      refine hrp2'.forall_range (fun x => less y x = false) ?_ (first + k) x (by omega)
        (by omega) hx
      intro k1 x1 h1 h2 hx1
      rw [← lessAt_eq less hy hx1]
      by_cases hmn : m = n
      · rw [hmn, lessAt_congr less hgetn
          (show d1[k1]? = d[if k1 = first then first + n else k1]? from by
            by_cases hk1 : k1 = first
            · rw [hk1, hget0]; simp
            · rw [hgeto k1 hk1 (by omega)]; simp [hk1])]
        have := hmax ((if k1 = first then first + n else k1) - first)
          (by split <;> omega)
        rw [show first + ((if k1 = first then first + n else k1) - first)
          = (if k1 = first then first + n else k1) from by split <;> omega] at this
        exact this
      · rw [lessAt_congr less (hgeto (first + m) (by omega) (by omega))
          (show d1[k1]? = d[if k1 = first then first + n else k1]? from by
            by_cases hk1 : k1 = first
            · rw [hk1, hget0]; simp
            · rw [hgeto k1 hk1 (by omega)]; simp [hk1])]
        have := hcross ((if k1 = first then first + n else k1) - first) m
          (by split <;> omega) (by omega) hm
        rw [show first + ((if k1 = first then first + n else k1) - first)
          = (if k1 = first then first + n else k1) from by split <;> omega] at this
        exact this
    have hrec := ih d2 (by omega) (by omega) hheap2 hs2 hcross2
    simp only [heapPop, hd1, hd2]
    exact ⟨(hsw.trans (hrp2'.mono (Nat.le_refl _) (by omega))).trans hrec.1, hrec.2⟩

theorem heapSort_func_spec (hasymm : ∀ a b, less a b = true → less b a = false)
    (hneg : ∀ a b c, less a b = false → less b c = false → less a c = false)
    (d : List α) (a b : Nat) (hab : a ≤ b) (hb : b ≤ d.length) :
    RangePerm a b d (heapSort_func less d a b)
    ∧ SortedOn less (heapSort_func less d a b) a b := by
  have hbuild := heapBuild_spec less hasymm hneg (b - a) a ((b - a - 1) / 2 + 1) d (by omega)
    (fun n c hn hc hch => by omega)
  generalize hd1 : heapBuild less (b - a) a ((b - a - 1) / 2 + 1) d = d1 at hbuild
  obtain ⟨h1, h2⟩ := hbuild
  have hpop := heapPop_spec less hasymm hneg (b - a) a (b - a) d1 (Nat.le_refl _)
    (by rw [h1.length_eq]; omega) h2
    (fun i j _ _ _ hij hj _ _ => by omega) (fun k m _ _ _ => by omega)
  have hba : a + (b - a) = b := by omega
  rw [hba] at h1 hpop
  unfold heapSort_func
  rw [hd1]
  exact ⟨h1.trans hpop.1, hpop.2⟩

end Heap

/-! ## Lemmas on the pattern-defeating quicksort -/

section Pdqsort

variable {α : Type} (less : α → α → Bool)

theorem RangePerm.lessAt_left {lo hi m : Nat} {d d2 : List α} (h : RangePerm lo hi d d2)
    (hm : m < lo ∨ hi ≤ m) (v : Bool) (H : ∀ k, lo ≤ k → k < hi → lessAt less d k m = v)
    (hhi : hi ≤ d.length) (hml : m < d.length) :
    ∀ k, lo ≤ k → k < hi → lessAt less d2 k m = v := by
  intro k h1 h2
  obtain ⟨p, hp⟩ := getElem?_isSome_of_lt hml
  obtain ⟨x, hx⟩ := getElem?_isSome_of_lt (d := d2) (k := k) (by rw [h.length_eq]; omega)
  have hp2 : d2[m]? = some p := by rw [h.2 m hm]; exact hp
  rw [lessAt_eq less hx hp2]
  refine h.forall_range (fun x => less x p = v) ?_ k x h1 h2 hx
  intro k1 x1 h3 h4 hx1
  rw [← lessAt_eq less hx1 hp]
  exact H k1 h3 h4

theorem RangePerm.lessAt_right {lo hi m : Nat} {d d2 : List α} (h : RangePerm lo hi d d2)
    (hm : m < lo ∨ hi ≤ m) (v : Bool) (H : ∀ k, lo ≤ k → k < hi → lessAt less d m k = v)
    (hhi : hi ≤ d.length) (hml : m < d.length) :
    ∀ k, lo ≤ k → k < hi → lessAt less d2 m k = v := by
  intro k h1 h2
  obtain ⟨p, hp⟩ := getElem?_isSome_of_lt hml
  obtain ⟨x, hx⟩ := getElem?_isSome_of_lt (d := d2) (k := k) (by rw [h.length_eq]; omega)
  have hp2 : d2[m]? = some p := by rw [h.2 m hm]; exact hp
  rw [lessAt_eq less hp2 hx]
  refine h.forall_range (fun x => less p x = v) ?_ k x h1 h2 hx
  intro k1 x1 h3 h4 hx1
  rw [← lessAt_eq less hp hx1]
  exact H k1 h3 h4

theorem SortedOn.append {d : List α} {a m b : Nat} (h1 : SortedOn less d a m)
    (h2 : SortedOn less d m b)
    (hc : ∀ i j, a ≤ i → i < m → m ≤ j → j < b → lessAt less d j i = false) :
    SortedOn less d a b := by
  intro i j x y hai hij hjb hx hy
  by_cases hjm : j < m
  · exact h1 i j x y hai hij hjm hx hy
  · by_cases him : m ≤ i
    · exact h2 i j x y him hij hjb hx hy
    · have := hc i j hai (by omega) (by omega) hjb
      rw [lessAt_eq less hy hx] at this
      exact this

theorem SortedOn.join
    (hneg : ∀ a b c, less a b = false → less b c = false → less a c = false)
    {d : List α} {a b : Nat} (mid : Nat) (hmid : mid < d.length) (h1 : SortedOn less d a mid)
    (h2 : SortedOn less d (mid + 1) b)
    (hl : ∀ i, a ≤ i → i < mid → lessAt less d mid i = false)
    (hr : ∀ j, mid < j → j < b → lessAt less d j mid = false) : SortedOn less d a b := by
  have h3 : SortedOn less d a (mid + 1) :=
    h1.append less (SortedOn.of_small less d mid (mid + 1) (Nat.le_refl _))
      (fun i j hai him hmj hj => by
        have : j = mid := by omega
        rw [this]
        exact hl i hai him)
  refine h3.append less h2 ?_
  intro i j hai him hmj hj
  by_cases hi : i = mid
  · rw [hi]; exact hr j (by omega) hj
  · exact lessAt_negTrans less hneg d hmid (hr j (by omega) hj) (hl i hai (by omega))

theorem BoundedBelow.shrink {d : List α} {a b b2 : Nat} (h : BoundedBelow less d a b)
    (hb : b2 ≤ b) : BoundedBelow less d a b2 :=
  fun k x p ha hak hkb hx hp => h k x p ha hak (by omega) hx hp

theorem BoundedBelow.of_lessAt {d : List α} {a b : Nat}
    (h : ∀ k, a ≤ k → k < b → lessAt less d k (a - 1) = false) : BoundedBelow less d a b := by
  intro k x p _ hak hkb hx hp
  have := h k hak hkb
  rw [lessAt_eq less hx hp] at this
  exact this

theorem BoundedBelow.lessAt_pred {d : List α} {a b : Nat} (h : BoundedBelow less d a b)
    (ha : 0 < a) {k : Nat} (hak : a ≤ k) (hkb : k < b) : lessAt less d k (a - 1) = false := by
  unfold lessAt
  cases hx : d[k]? with
  | none => rfl
  | some x =>
    cases hp : d[a - 1]? with
    | none => rfl
    | some p => exact h k x p ha hak hkb hx hp

theorem pdqsortPrepare_spec (next : Nat → Nat)
    (hasymm : ∀ a b, less a b = true → less b a = false)
    (hneg : ∀ a b c, less a b = false → less b c = false → less a c = false)
    (d : List α) (a b limit : Nat) (wb wp : Bool) (h8 : 8 ≤ b - a) (hb : b ≤ d.length)
    (hbb : BoundedBelow less d a b) :
    RangePerm a b d (pdqsortPrepare next less d a b limit wb wp).data
    ∧ a ≤ (pdqsortPrepare next less d a b limit wb wp).pivot
    ∧ (pdqsortPrepare next less d a b limit wb wp).pivot < b
    ∧ ((pdqsortPrepare next less d a b limit wb wp).sorted = true →
        SortedOn less (pdqsortPrepare next less d a b limit wb wp).data a b) := by
  have h1 : RangePerm a b d (if (!wb) = true then breakPatterns_func next d a b else d) := by
    split
    · exact breakPatterns_func_rangePerm next d a b
    · exact RangePerm.refl _ _ _
  unfold pdqsortPrepare
  simp only
  generalize (if (!wb) = true then breakPatterns_func next d a b else d) = d1 at h1
  have hpiv := choosePivotIndex_bounds less d1 a b h8
  rw [← choosePivot_func_fst] at hpiv
  generalize choosePivot_func less d1 a b = ph at hpiv
  have h2 : RangePerm a b d1
      (if ph.2 = sortedHint.decreasingHint then reverseRange_func d1 a b else d1) := by
    split
    · exact reverseRange_func_rangePerm d1 a b (by omega)
    · exact RangePerm.refl _ _ _
  generalize (if ph.2 = sortedHint.decreasingHint then reverseRange_func d1 a b else d1) = d2
    at h2
  have h12 : RangePerm a b d d2 := h1.trans h2
  have hpivot : a ≤ (if ph.2 = sortedHint.decreasingHint then b - 1 - (ph.1 - a) else ph.1)
      ∧ (if ph.2 = sortedHint.decreasingHint then b - 1 - (ph.1 - a) else ph.1) < b := by
    split <;> omega
  have htry : ∀ c : Bool,
      RangePerm a b d2
        (if c = true then partialInsertionSort_func less d2 a b else (d2, false)).1
      ∧ ((if c = true then partialInsertionSort_func less d2 a b else (d2, false)).2 = true →
        SortedOn less
          (if c = true then partialInsertionSort_func less d2 a b else (d2, false)).1 a b) := by
    intro c
    cases c with
    | true =>
      simp only [if_true]
      exact partialInsertionSort_func_spec less hasymm hneg d2 a b (by omega)
        (by rw [h12.length_eq]; exact hb) (hbb.of_rangePerm less h12)
    | false =>
      simp only [Bool.false_eq_true, if_false]
      exact ⟨RangePerm.refl _ _ _, fun h => absurd h (by decide)⟩
  exact ⟨h12.trans (htry _).1, hpivot.1, hpivot.2, (htry _).2⟩

theorem pdqsortLoop_spec (next : Nat → Nat)
    (hasymm : ∀ a b, less a b = true → less b a = false)
    (hneg : ∀ a b c, less a b = false → less b c = false → less a c = false) :
    ∀ fuel (d : List α) (a b limit : Nat) (wb wp : Bool), a ≤ b → b ≤ d.length →
      b - a < fuel → BoundedBelow less d a b →
      RangePerm a b d (pdqsortLoop next less fuel d a b limit wb wp)
      ∧ SortedOn less (pdqsortLoop next less fuel d a b limit wb wp) a b := by
  intro fuel
  induction fuel with
  | zero => intro d a b limit wb wp _ _ hf _; omega
  | succ fuel ih =>
    intro d a b limit wb wp hab hb hf hbb
    rw [pdqsortLoop]
    by_cases hsmall : b - a ≤ 12
    · simp only [hsmall, if_true]
      exact ⟨insertionSortRange_rangePerm less d a b hab hb,
        insertionSortRange_sorted less hasymm hneg d a b hab hb⟩
    · simp only [hsmall, if_false]
      by_cases hlim : limit = 0
      · simp only [hlim, if_true]
        exact heapSort_func_spec less hasymm hneg d a b hab hb
      · simp only [hlim, if_false]
        have hprep := pdqsortPrepare_spec less next hasymm hneg d a b limit wb wp (by omega) hb
          hbb
        generalize pdqsortPrepare next less d a b limit wb wp = p at hprep
        obtain ⟨hp1, hp2, hp3, hp4⟩ := hprep
        have hplen : p.data.length = d.length := hp1.length_eq
        have hbbp : BoundedBelow less p.data a b := hbb.of_rangePerm less hp1
        by_cases hdone : p.sorted = true
        · simp only [hdone, if_true]
          exact ⟨hp1, hp4 hdone⟩
        · simp only [hdone, Bool.false_eq_true, if_false]
          by_cases heq : (decide (a > 0) && !lessAt less p.data (a - 1) p.pivot) = true
          · simp only [heq, if_true]
            simp only [Bool.and_eq_true, decide_eq_true_eq, Bool.not_eq_true'] at heq
            obtain ⟨ha0, hpred⟩ := heq
            have hpe := partitionEqual_func_spec less p.data a b p.pivot hp2 hp3 (by omega)
            generalize partitionEqual_func less p.data a b p.pivot = r at hpe
            obtain ⟨hr1, hr2, hr3, hr4, hr5, hr6⟩ := hpe
            have hrlen : r.1.length = d.length := by rw [hr1.length_eq, hplen]
            have hbbr : BoundedBelow less r.1 a b := hbbp.of_rangePerm less hr1
            -- the pivot, now at `a`, is not less than any element of `[a, r.2)`
            have hle : ∀ k, a ≤ k → k < r.2 → lessAt less r.1 a k = false := by
              intro k h1 h2
              by_cases hk : k = a
              · rw [hk]; exact lessAt_irrefl less hasymm r.1 a
              · exact hr5 k (by omega) h2
            -- the element before the slice is not less than the pivot
            have hpred2 : lessAt less r.1 (a - 1) a = false := by
              rw [lessAt_congr less (hr1.2 (a - 1) (Or.inl (by omega))) hr4]
              exact hpred
            -- no element of `[a, b)` is less than the pivot
            have hge : ∀ k, a ≤ k → k < b → lessAt less r.1 k a = false := by
              intro k h1 h2
              exact lessAt_negTrans less hneg r.1 (by omega)
                (hbbr.lessAt_pred less ha0 h1 h2) hpred2
            -- elements from `r.2` on are not less than elements before `r.2`
            have hcross : ∀ i j, a ≤ i → i < r.2 → r.2 ≤ j → j < b →
                lessAt less r.1 j i = false := by
              intro i j h1 h2 h3 h4
              exact lessAt_negTrans less hneg r.1 (by omega)
                (lessAt_asymm less hasymm r.1 (hr6 j h3 h4)) (hle i h1 h2)
            have hrec := ih r.1 r.2 b p.limit wb wp hr3 (by omega) (by omega)
              (BoundedBelow.of_lessAt less (fun k h1 h2 =>
                hcross (r.2 - 1) k (by omega) (by omega) h1 h2))
            generalize pdqsortLoop next less fuel r.1 r.2 b p.limit wb wp = res at hrec
            obtain ⟨hres1, hres2⟩ := hrec
            refine ⟨(hp1.trans hr1).trans (hres1.mono (by omega) (Nat.le_refl _)), ?_⟩
            have hsame : ∀ k, k < r.2 → res[k]? = r.1[k]? := fun k hk => hres1.2 k (Or.inl hk)
            refine SortedOn.append less (m := r.2) ?_ hres2 ?_
            · apply sortedOn_of_lessAt
              intro i j h1 h2 h3
              rw [lessAt_congr less (hsame j h3) (hsame i (by omega))]
              exact lessAt_negTrans less hneg r.1 (by omega) (hge j (by omega) (by omega))
                (hle i h1 (by omega))
            · intro i j h1 h2 h3 h4
              have := hres1.lessAt_left less (m := i) (Or.inl h2) false
                (fun k h5 h6 => hcross i k h1 h2 h5 h6) (by omega) (by omega) j h3 h4
              exact this
          · simp only [heq, Bool.false_eq_true, if_false]
            have hpa := partition_func_spec less p.data a b p.pivot hp2 hp3 (by omega)
            generalize partition_func less p.data a b p.pivot = r at hpa
            obtain ⟨hr1, hr2, hr3, hr4, hr5⟩ := hpa
            generalize hmid : r.2.1 = mid at hr2 hr3 hr4 hr5
            have hrlen : r.1.length = d.length := by rw [hr1.length_eq, hplen]
            have hbbr : BoundedBelow less r.1 a b := hbbp.of_rangePerm less hr1
            by_cases hside : mid - a < b - mid
            · simp only [hside, if_true]
              have hrecL := ih r.1 a mid p.limit true true hr2 (by omega) (by omega)
                (hbbr.shrink less (by omega))
              generalize pdqsortLoop next less fuel r.1 a mid p.limit true true = dL at hrecL
              obtain ⟨hL1, hL2⟩ := hrecL
              have hLlen : dL.length = d.length := by rw [hL1.length_eq, hrlen]
              have hLout : ∀ k, mid ≤ k → dL[k]? = r.1[k]? := fun k hk => hL1.2 k (Or.inr hk)
              have hLlo : ∀ k, a ≤ k → k < mid → lessAt less dL k mid = true :=
                hL1.lessAt_left less (Or.inr (Nat.le_refl _)) true hr4 (by omega) (by omega)
              have hLhi : ∀ k, mid < k → k < b → lessAt less dL k mid = false := by
                intro k h1 h2
                rw [lessAt_congr less (hLout k (by omega)) (hLout mid (Nat.le_refl _))]
                exact hr5 k h1 h2
              have hrecR := ih dL (mid + 1) b p.limit (decide (mid - a ≥ (b - a) / 8)) r.2.2
                (by omega) (by omega) (by omega)
                (BoundedBelow.of_lessAt less (fun k h1 h2 => by
                  simpa using hLhi k (by omega) h2))
              generalize pdqsortLoop next less fuel dL (mid + 1) b p.limit
                (decide (mid - a ≥ (b - a) / 8)) r.2.2 = res at hrecR
              obtain ⟨hR1, hR2⟩ := hrecR
              have hRout : ∀ k, k ≤ mid → res[k]? = dL[k]? :=
                fun k hk => hR1.2 k (Or.inl (by omega))
              refine ⟨((hp1.trans hr1).trans (hL1.mono (Nat.le_refl _) (by omega))).trans
                (hR1.mono (by omega) (Nat.le_refl _)), ?_⟩
              refine SortedOn.join less hneg mid (by rw [hR1.length_eq]; omega) ?_ hR2
                ?_ ?_
              · exact hL2.congr less (fun k _ hk => hRout k (by omega))
              · intro i h1 h2
                rw [lessAt_congr less (hRout mid (Nat.le_refl _)) (hRout i (by omega))]
                exact lessAt_asymm less hasymm dL (hLlo i h1 h2)
              · exact hR1.lessAt_left less (Or.inl (by omega)) false
                  (fun k h1 h2 => hLhi k (by omega) h2) (by omega) (by omega)
            · simp only [hside, if_false]
              have hrecR := ih r.1 (mid + 1) b p.limit true true (by omega) (by omega)
                (by omega)
                (BoundedBelow.of_lessAt less (fun k h1 h2 => by
                  simpa using hr5 k (by omega) h2))
              generalize pdqsortLoop next less fuel r.1 (mid + 1) b p.limit true true = dR at hrecR
              obtain ⟨hR1, hR2⟩ := hrecR
              have hRlen : dR.length = d.length := by rw [hR1.length_eq, hrlen]
              have hRout : ∀ k, k ≤ mid → dR[k]? = r.1[k]? :=
                fun k hk => hR1.2 k (Or.inl (by omega))
              have hRhi : ∀ k, mid + 1 ≤ k → k < b → lessAt less dR k mid = false :=
                hR1.lessAt_left less (Or.inl (by omega)) false
                  (fun k h1 h2 => hr5 k (by omega) h2) (by omega) (by omega)
              have hRlo : ∀ k, a ≤ k → k < mid → lessAt less dR k mid = true := by
                intro k h1 h2
                rw [lessAt_congr less (hRout k (by omega)) (hRout mid (Nat.le_refl _))]
                exact hr4 k h1 h2
              have hrecL := ih dR a mid p.limit (decide (b - mid ≥ (b - a) / 8)) r.2.2
                hr2 (by omega) (by omega)
                ((hbbr.of_rangePerm less (hR1.mono (by omega) (Nat.le_refl _))).shrink less
                  (by omega))
              generalize pdqsortLoop next less fuel dR a mid p.limit
                (decide (b - mid ≥ (b - a) / 8)) r.2.2 = res at hrecL
              obtain ⟨hL1, hL2⟩ := hrecL
              have hLout : ∀ k, mid ≤ k → res[k]? = dR[k]? := fun k hk => hL1.2 k (Or.inr hk)
              refine ⟨((hp1.trans hr1).trans (hR1.mono (by omega) (Nat.le_refl _))).trans
                (hL1.mono (Nat.le_refl _) (by omega)), ?_⟩
              refine SortedOn.join less hneg mid (by rw [hL1.length_eq]; omega) hL2
                ?_ ?_ ?_
              · exact hR2.congr less (fun k hk _ => hLout k (by omega))
              · intro i h1 h2
                exact lessAt_asymm less hasymm res
                  (hL1.lessAt_left less (Or.inr (Nat.le_refl _)) true hRlo (by omega) (by omega)
                    i h1 h2)
              · intro j h1 h2
                rw [lessAt_congr less (hLout j (by omega)) (hLout mid (Nat.le_refl _))]
                exact hRhi j (by omega) h2

theorem sortSlice_perm (next : Nat → Nat) (less : α → α → Bool)
    (hasymm : ∀ a b, less a b = true → less b a = false)
    (hneg : ∀ a b c, less a b = false → less b c = false → less a c = false) (xs : List α) :
    (sortSlice next less xs).Perm xs :=
  (pdqsortLoop_spec less next hasymm hneg (xs.length + 1) xs 0 xs.length (bitsLen xs.length)
    true true (Nat.zero_le _) (Nat.le_refl _) (by omega)
    (fun k x p h _ _ _ _ => by omega)).1.1

theorem sortSlice_pairwise (next : Nat → Nat) (less : α → α → Bool)
    (hasymm : ∀ a b, less a b = true → less b a = false)
    (hneg : ∀ a b c, less a b = false → less b c = false → less a c = false) (xs : List α) :
    (sortSlice next less xs).Pairwise (fun x y => less y x = false) := by
  have h := pdqsortLoop_spec less next hasymm hneg (xs.length + 1) xs 0 xs.length
    (bitsLen xs.length) true true (Nat.zero_le _) (Nat.le_refl _) (by omega)
    (fun k x p h _ _ _ _ => by omega)
  have hlen : (sortSlice next less xs).length = xs.length := h.1.length_eq
  apply SortedOn.pairwise
  rw [hlen]
  exact h.2

theorem sortSlice_short (next : Nat → Nat) (less : α → α → Bool) {xs : List α}
    (h : xs.length ≤ 12) : sortSlice next less xs = insertionSort_func less xs := by
  unfold sortSlice
  rw [pdqsortLoop]
  simp [h, insertionSortRange_whole]

end Pdqsort


/-! ## Lemmas on the rating order and sort.Slice -/

theorem ratingLess_asymm (env : Env) (a b : GoString) (h : ratingLess env a b = true) :
    ratingLess env b a = false :=
  strLess_asymm _ _ h

theorem ratingLess_negTrans (env : Env) (a b c : GoString) (h1 : ratingLess env a b = false)
    (h2 : ratingLess env b c = false) : ratingLess env a c = false :=
  strLess_negTrans _ _ _ h2 h1

theorem ratingLess_ne (env : Env) (r : GoString) (a b : GoString)
    (h : ratingLess env a b = true) (ha : (env.ratings.index a == r) = true)
    (hb : (env.ratings.index b == r) = true) : False := by
  have ha2 : env.ratings.index a = r := by simpa using ha
  have hb2 : env.ratings.index b = r := by simpa using hb
  unfold ratingLess at h
  rw [ha2, hb2, strLess_irrefl] at h
  exact Bool.false_ne_true h

theorem localPrompts_nodup (env : Env) (query : GoString) :
    (localPrompts env query).data.Nodup := by
  rw [localPrompts_data]
  by_cases h2 : literal env query = normalize env.unicodeLower query <;>
  by_cases h1 : corrected env query = normalize env.unicodeLower query <;>
  by_cases h12 : corrected env query = literal env query <;>
  simp [h1, h2, h12]
  exact fun h => h12 h.symm

/-! ## Claims on the normalizer -/

/-- C6: `strip(ToLower(s))` is the lowercased `s` with exactly the bytes outside
`a-z`, `0-9` and space removed: it equals the filter of the lowercased string by that alphabet
(same bytes, same order, nothing inserted), every byte of it lies in the alphabet, and
`don't` gives `dont`, `sci-fi` gives `scifi`. -/
theorem C6_normalize_filters (u : GoString → GoString) (s : GoString) :
    normalize u s = (ToLower u s).filter keep
    ∧ (∀ b ∈ normalize u s, (97 ≤ b ∧ b ≤ 122) ∨ (48 ≤ b ∧ b ≤ 57) ∨ b = 32)
    ∧ normalize u (ascii "don't") = ascii "dont"
    ∧ normalize u (ascii "sci-fi") = ascii "scifi"
    ∧ normalize u (ascii "Sci-Fi 2") = ascii "scifi 2" := by
  refine ⟨strip_eq_filter _, ?_, ?_, ?_, ?_⟩
  · intro b hb
    exact (keep_iff b).mp (keep_of_mem_strip hb)
  · rw [normalize_of_isASCII u (by decide)]; decide
  · rw [normalize_of_isASCII u (by decide)]; decide
  · rw [normalize_of_isASCII u (by decide)]; decide

/-- C7: normalization is idempotent, `normalize (normalize s) = normalize s`, for every byte
string and every behaviour of the Unicode branch of `strings.ToLower`. -/
theorem C7_normalize_idempotent (u : GoString → GoString) (s : GoString) :
    normalize u (normalize u s) = normalize u s := by
  have hall : ∀ b ∈ normalize u s, keep b = true := fun b hb => keep_of_mem_strip hb
  unfold normalize at hall ⊢
  rw [ToLower_of_all_keep u hall, strip_of_all_keep hall]

/-! ## Claims on the candidates built locally -/

/-- C2: when the remote client answers, the result of `prompter` is `[literal]` if `literal`
differs from the normalized query, then `[corrected]` if `corrected` differs from the
normalized query and from `literal`, then the remote answer sorted by rating: whatever the
answer, that last part is a permutation of it in which no title is followed by a title of
greater rating (ratings compared as byte strings, an absent title rated `""`). When the remote
client fails there is no result. -/
theorem C2_result_layout (env : Env) (query : GoString) :
    (prompter env query).result =
      (env.respond (corrected env query) (remaining env query)).map (fun mlprompts =>
        (if literal env query ≠ normalize env.unicodeLower query then [literal env query]
          else [])
        ++ (if corrected env query ≠ normalize env.unicodeLower query
              ∧ corrected env query ≠ literal env query then [corrected env query] else [])
        ++ sortSlice env.xorshift (ratingLess env) mlprompts)
    ∧ ∀ mlprompts : List GoString,
        (sortSlice env.xorshift (ratingLess env) mlprompts).Perm mlprompts
        ∧ (sortSlice env.xorshift (ratingLess env) mlprompts).Pairwise
            (fun a b => strLess (env.ratings.index a) (env.ratings.index b) = false) := by
  refine ⟨?_, fun mlprompts => ⟨?_, ?_⟩⟩
  · rw [prompter_result, localPrompts_data]
  · exact sortSlice_perm env.xorshift (ratingLess env) (ratingLess_asymm env) (ratingLess_negTrans env) _
  · exact sortSlice_pairwise env.xorshift (ratingLess env) (ratingLess_asymm env) (ratingLess_negTrans env) _

/-- C3, as amended: with `t1..tk` the tokens of the normalized query, `literal` is
`t1..t(k-1)` unchanged, each followed by one space, followed by the oracle's suggestion for
`tk`; `corrected` is the oracle's suggestion for each of `t1..t(k-1)`, each followed by one
space, followed by the oracle's suggestion for `tk`. The tokens are the space-free pieces of
the normalized query: joined by single spaces they give it back. -/
theorem C3_running_strings (env : Env) (query : GoString) :
    literal env query =
      (Split (normalize env.unicodeLower query)).dropLast.flatMap (fun t => t ++ [space]) ++
        env.Suggest ((Split (normalize env.unicodeLower query)).getLast (Split_ne_nil _))
          env.words
    ∧ corrected env query =
      (Split (normalize env.unicodeLower query)).dropLast.flatMap
          (fun t => env.Suggest t env.words ++ [space]) ++
        env.Suggest ((Split (normalize env.unicodeLower query)).getLast (Split_ne_nil _))
          env.words
    ∧ List.intercalate [space] (Split (normalize env.unicodeLower query))
        = normalize env.unicodeLower query
    ∧ (∀ t ∈ Split (normalize env.unicodeLower query), space ∉ t) := by
  unfold literal corrected
  rw [runningStrings_eq]
  exact ⟨rfl, rfl, Split_intercalate _, Split_no_space _⟩

/-- C3 as stated fails: for the query `the matriks`, tokens `the` and `matriks`, with an oracle
correcting `matriks` to `matrix`, `literal` is `the matrix`, not the tokens unchanged. -/
theorem C3_literal_counterexample :
    Split (normalize (fun s => s) (ascii "the matriks")) = [ascii "the", ascii "matriks"]
    ∧ literal (demoEnv (fun _ _ => none)) (ascii "the matriks") = ascii "the matrix"
    ∧ literal (demoEnv (fun _ _ => none)) (ascii "the matriks")
        ≠ ascii "the" ++ [space] ++ ascii "matriks" := by
  decide

/-- C5: `prompter` makes exactly one request to the remote client, with `str1` as query and
`cap(prompts)-len(prompts)`, that is 5 minus the number of local candidates, as count; the count
is 5, 4 or 3, and each of the three occurs. -/
theorem C5_remote_request (env : Env) (query : GoString) :
    (prompter env query).calls = [(corrected env query, remaining env query)]
    ∧ remaining env query = 5 - ((localPrompts env query).data.length : Int)
    ∧ (remaining env query = 5 ∨ remaining env query = 4 ∨ remaining env query = 3)
    ∧ remaining (demoEnv (fun _ _ => none)) (ascii "the matrix") = 5
    ∧ remaining (demoEnv (fun _ _ => none)) (ascii "the matriks") = 4
    ∧ remaining (demoEnv (fun _ _ => none)) (ascii "matriks the matriks") = 3 := by
  have hlen := localPrompts_length_le env query
  have hcap := localPrompts_cap env query
  refine ⟨?_, ?_, ?_, by decide, by decide, by decide⟩
  · unfold prompter GetPrompts remaining corrected
    cases h : env.respond (runningStrings env query).1
      (((localPrompts env query).cap : Int) - ((localPrompts env query).data.length : Int)) <;>
    simp [h]
  · simp [remaining, hcap]
  · simp only [remaining, hcap]
    omega

/-- C8: when the normalized query has no space, `Split` yields that one token (the empty
string for the empty query), `literal` and `corrected` are both the oracle's suggestion for it,
so they are equal, `corrected` is not added, and there is at most one local candidate. -/
theorem C8_single_token (env : Env) (query : GoString)
    (h : space ∉ normalize env.unicodeLower query) :
    Split (normalize env.unicodeLower query) = [normalize env.unicodeLower query]
    ∧ literal env query = env.Suggest (normalize env.unicodeLower query) env.words
    ∧ corrected env query = env.Suggest (normalize env.unicodeLower query) env.words
    ∧ (localPrompts env query).data =
        (if env.Suggest (normalize env.unicodeLower query) env.words
            ≠ normalize env.unicodeLower query
          then [env.Suggest (normalize env.unicodeLower query) env.words] else [])
    ∧ (localPrompts env query).data.length ≤ 1 := by
  have hsplit := Split_of_no_space h
  have hrun : runningStrings env query =
      (env.Suggest (normalize env.unicodeLower query) env.words,
       env.Suggest (normalize env.unicodeLower query) env.words) := by
    rw [runningStrings_eq]
    simp [hsplit]
  have hlit : literal env query = env.Suggest (normalize env.unicodeLower query) env.words := by
    simp [literal, hrun]
  have hcor : corrected env query = env.Suggest (normalize env.unicodeLower query) env.words := by
    simp [corrected, hrun]
  have hdata : (localPrompts env query).data =
      (if env.Suggest (normalize env.unicodeLower query) env.words
          ≠ normalize env.unicodeLower query
        then [env.Suggest (normalize env.unicodeLower query) env.words] else []) := by
    rw [localPrompts_data, hlit, hcor]
    simp
  refine ⟨hsplit, hlit, hcor, hdata, ?_⟩
  rw [hdata]
  split <;> simp

/-- C8 at the empty query: one empty token, no local candidate. -/
theorem C8_single_token_witness :
    space ∉ normalize (demoEnv (fun _ _ => none)).unicodeLower []
    ∧ (localPrompts (demoEnv (fun _ _ => none)) []).data.length ≤ 1 :=
  ⟨by decide, (C8_single_token (demoEnv (fun _ _ => none)) [] (by decide)).2.2.2.2⟩

/-! ## Claims on the merged result -/

/-- C1, as amended: when the remote client answers with at most the requested number of
entries, without duplicates and without any of the local candidates, the list returned by
`prompter` has no duplicates and at most 5 entries. -/
theorem C1_bounded_distinct (env : Env) (query : GoString) (ml : List GoString)
    (hresp : env.respond (corrected env query) (remaining env query) = some ml)
    (hlen : (ml.length : Int) ≤ remaining env query)
    (hnodup : ml.Nodup)
    (hlocal : ∀ c ∈ (localPrompts env query).data, c ∉ ml) :
    ∃ l, (prompter env query).result = some l ∧ l.Nodup ∧ l.length ≤ 5 := by
  have hcap := localPrompts_cap env query
  have hrem : remaining env query = 5 - ((localPrompts env query).data.length : Int) := by
    simp [remaining, hcap]
  have hperm : (sortSlice env.xorshift (ratingLess env) ml).Perm ml :=
    sortSlice_perm env.xorshift (ratingLess env) (ratingLess_asymm env) (ratingLess_negTrans env) ml
  refine ⟨(localPrompts env query).data ++ sortSlice env.xorshift (ratingLess env) ml, ?_, ?_, ?_⟩
  · rw [prompter_result, hresp]
    rfl
  · rw [List.nodup_append]
    refine ⟨localPrompts_nodup env query, hperm.nodup_iff.mpr hnodup, ?_⟩
    intro c hc hc2
    exact hlocal c hc (hperm.mem_iff.mp hc2)
  · rw [List.length_append, hperm.length_eq]
    omega

/-- C1, as amended, at the query `the matriks` with the two titles of the spec's scenario as
remote answer. -/
theorem C1_bounded_distinct_witness :
    (demoEnv (fun _ _ => some [ascii "the matrix revolutions", ascii "the matrix reloaded"])).respond
        (corrected (demoEnv (fun _ _ =>
          some [ascii "the matrix revolutions", ascii "the matrix reloaded"])) (ascii "the matriks"))
        (remaining (demoEnv (fun _ _ =>
          some [ascii "the matrix revolutions", ascii "the matrix reloaded"])) (ascii "the matriks"))
      = some [ascii "the matrix revolutions", ascii "the matrix reloaded"]
    ∧ ∃ l, (prompter (demoEnv (fun _ _ =>
          some [ascii "the matrix revolutions", ascii "the matrix reloaded"]))
        (ascii "the matriks")).result = some l ∧ l.Nodup ∧ l.length ≤ 5 :=
  ⟨rfl, C1_bounded_distinct
    (demoEnv (fun _ _ => some [ascii "the matrix revolutions", ascii "the matrix reloaded"]))
    (ascii "the matriks") [ascii "the matrix revolutions", ascii "the matrix reloaded"]
    rfl (by decide) (by decide) (by decide)⟩

/-- C1 as stated fails: when the remote service answers the request for 4 entries of the query
`the matriks` with six entries, two of them equal to the local candidate, `prompter` returns all
seven strings, with `the matrix` three times. -/
theorem C1_capacity_counterexample :
    (prompter (demoEnv (fun _ _ => some [ascii "the matrix", ascii "the matrix", ascii "a",
        ascii "b", ascii "c", ascii "d"])) (ascii "the matriks")).result
      = some [ascii "the matrix", ascii "the matrix", ascii "the matrix", ascii "a",
          ascii "b", ascii "c", ascii "d"]
    ∧ ¬ [ascii "the matrix", ascii "the matrix", ascii "the matrix", ascii "a",
          ascii "b", ascii "c", ascii "d"].Nodup
    ∧ ¬ [ascii "the matrix", ascii "the matrix", ascii "the matrix", ascii "a",
          ascii "b", ascii "c", ascii "d"].length ≤ 5 := by
  decide

/-- C4, as amended: for every remote answer and every rating index, the remote part of the
result (what `prompter` appends to its local candidates) is a permutation of the answer and is
sorted by rating descending, ratings compared as
byte strings and an absent title counted with the empty rating, so that no absent title
precedes a title with a non-empty rating; and for an answer of at most 12 entries (the client
asks for at most 5) titles with equal ratings keep the order of the answer. E.g. the titles
rated 7.2 and 6.7 come out in that order whichever way they arrive. -/
theorem C4_remote_order (env : Env) (ml : List GoString) :
    (∀ query, env.respond (corrected env query) (remaining env query) = some ml →
      (prompter env query).result
        = some ((localPrompts env query).data ++ sortSlice env.xorshift (ratingLess env) ml))
    ∧ (sortSlice env.xorshift (ratingLess env) ml).Perm ml
    ∧ (sortSlice env.xorshift (ratingLess env) ml).Pairwise
        (fun a b => strLess (env.ratings.index a) (env.ratings.index b) = false)
    ∧ (sortSlice env.xorshift (ratingLess env) ml).Pairwise
        (fun a b => env.ratings a = none → env.ratings.index b = [])
    ∧ (ml.length ≤ 12 → ∀ r : GoString,
        (sortSlice env.xorshift (ratingLess env) ml).filter (fun t => env.ratings.index t == r)
          = ml.filter (fun t => env.ratings.index t == r))
    ∧ sortSlice (demoEnv (fun _ _ => none)).xorshift (ratingLess (demoEnv (fun _ _ => none)))
        [ascii "the matrix reloaded", ascii "the matrix revolutions"]
        = [ascii "the matrix reloaded", ascii "the matrix revolutions"]
    ∧ sortSlice (demoEnv (fun _ _ => none)).xorshift (ratingLess (demoEnv (fun _ _ => none)))
        [ascii "the matrix revolutions", ascii "the matrix reloaded"]
        = [ascii "the matrix reloaded", ascii "the matrix revolutions"] := by
  have hsorted := sortSlice_pairwise env.xorshift (ratingLess env) (ratingLess_asymm env)
    (ratingLess_negTrans env) ml
  refine ⟨?_, sortSlice_perm env.xorshift (ratingLess env) (ratingLess_asymm env) (ratingLess_negTrans env) ml,
    hsorted, ?_, ?_, by decide, by decide⟩
  · intro query hresp
    rw [prompter_result, hresp]
    rfl
  · refine hsorted.imp ?_
    intro a b hab hnone
    have ha : env.ratings.index a = [] := by simp [GoMap.index, hnone]
    unfold ratingLess at hab
    rw [ha] at hab
    exact strLess_nil_left _ hab
  · intro hshort r
    rw [sortSlice_short env.xorshift (ratingLess env) hshort]
    exact insertionSort_func_filter _ _ (ratingLess_ne env r) ml

/-- C4 as stated fails, in two ways. Stability: for the remote answer `a`, ..., `m`, thirteen
titles of which `a` to `l` are all rated `7.0` and `m` is rated `9.0`, the remote part of the
result is `m g c d e f a h i j k l b`: `g` now precedes `a` and `b` comes last, though the
three have the same rating and arrived as `a`, `b`, `g` (the swaps of `partition_func` around
the pivot `g` do it; no pseudo-random number is drawn on this run), so the titles rated `7.0`
are not in the order of the answer. Absent titles: for the remote answer `zzz`, `untitled`,
where `zzz` is absent from the rating index and `untitled` is in it with an empty rating
field, the remote part keeps `zzz` before `untitled`. -/
theorem C4_stability_counterexample :
    (prompter tieEnv (ascii "the matrix")).result
      = some [ascii "m", ascii "g", ascii "c", ascii "d", ascii "e", ascii "f", ascii "a",
          ascii "h", ascii "i", ascii "j", ascii "k", ascii "l", ascii "b"]
    ∧ tieEnv.respond (corrected tieEnv (ascii "the matrix"))
        (remaining tieEnv (ascii "the matrix"))
      = some [ascii "a", ascii "b", ascii "c", ascii "d", ascii "e", ascii "f", ascii "g",
          ascii "h", ascii "i", ascii "j", ascii "k", ascii "l", ascii "m"]
    ∧ tieEnv.ratings (ascii "a") = some (ascii "7.0")
    ∧ tieEnv.ratings (ascii "b") = some (ascii "7.0")
    ∧ tieEnv.ratings (ascii "g") = some (ascii "7.0")
    ∧ (sortSlice tieEnv.xorshift (ratingLess tieEnv) tieTitles).filter
          (fun t => tieEnv.ratings.index t == ascii "7.0")
        ≠ tieTitles.filter (fun t => tieEnv.ratings.index t == ascii "7.0")
    ∧ (prompter (demoEnv (fun _ _ => some [ascii "zzz", ascii "untitled"]))
        (ascii "the matrix")).result = some [ascii "zzz", ascii "untitled"]
    ∧ (demoEnv (fun _ _ => some [ascii "zzz", ascii "untitled"])).ratings (ascii "zzz") = none
    ∧ (demoEnv (fun _ _ => some [ascii "zzz", ascii "untitled"])).ratings (ascii "untitled")
        = some [] := by
  decide

/-! ## Startup -/

theorem Ping_sending_iff (r : Response) :
    (Ping r).pc = ProbePc.sending ↔ r = Response.status 200 := by
  cases r with
  | failed => simp [Ping]
  | status code =>
    by_cases h : code = 200
    · simp [Ping, h]
    · simp [Ping, h]

theorem Ping_sent (r : Response) : (Ping r).sent = false := by
  cases r with
  | failed => rfl
  | status code => by_cases h : code = 200 <;> simp [Ping, h]

theorem Ping_resp (r : Response) : (Ping r).resp = some r := by
  cases r with
  | failed => rfl
  | status code => by_cases h : code = 200 <;> simp [Ping, h]

theorem System.init_safe : System.init.Safe := by
  simp [System.Safe, System.init]

theorem System.step_safe (s : System) (e : Event) (h : s.Safe) : (s.step e).Safe := by
  obtain ⟨h1, h2, h3, h4⟩ := h
  cases e with
  | tick =>
    by_cases hc : s.main = MainPc.selecting ∧ s.tickerRunning = true
    · simp only [System.step, if_pos hc]
      refine ⟨fun _ => h1 hc.1, fun hm => absurd hc.1 hm, ?_, ?_⟩
      · intro p hp
        rcases List.mem_append.mp hp with hp | hp
        · exact h3 p hp
        · simp only [List.mem_singleton] at hp
          subst hp
          simp
      · intro hm
        exact h4 hm
    · simp only [System.step, if_neg hc]
      exact ⟨h1, h2, h3, h4⟩
  | response i r =>
    cases hp : s.probes[i]? with
    | none =>
      simp only [System.step, hp]
      exact ⟨h1, h2, h3, h4⟩
    | some p =>
      by_cases hpc : p.pc = ProbePc.requesting
      · simp only [System.step, hp, if_pos hpc]
        have hmem : p ∈ s.probes := List.getElem?_mem hp
        refine ⟨h1, ?_, ?_, h4⟩
        · intro hm
          obtain ⟨hr, q, hq, hqs⟩ := h2 hm
          refine ⟨hr, q, ?_, hqs⟩
          obtain ⟨k, hk, hkq⟩ := List.getElem_of_mem hq
          have hki : i ≠ k := by
            intro hik
            subst hik
            have hiq : s.probes[i]? = some q := by
              rw [List.getElem?_eq_getElem hk, hkq]
            rw [hp] at hiq
            have hpq : p = q := Option.some.inj hiq
            subst hpq
            have hret := (h3 p hmem).2 hqs
            rw [hpc] at hret
            exact ProbePc.noConfusion hret
          show q ∈ s.probes.set i (Ping r)
          rw [List.mem_iff_getElem]
          refine ⟨k, by simpa using hk, ?_⟩
          rw [List.getElem_set_ne hki]
          exact hkq
        · intro q hq
          rcases List.mem_or_eq_of_mem_set hq with hq | hq
          · exact h3 q hq
          · subst hq
            refine ⟨?_, ?_⟩
            · intro hs
              rcases hs with hs | hs
              · rw [Ping_resp, (Ping_sending_iff r).mp hs]
              · rw [Ping_sent] at hs
                exact absurd hs Bool.false_ne_true
            · intro hs
              rw [Ping_sent] at hs
              exact absurd hs Bool.false_ne_true
      · simp only [System.step, hp, if_neg hpc]
        exact ⟨h1, h2, h3, h4⟩
  | handoff i =>
    cases hp : s.probes[i]? with
    | none =>
      simp only [System.step, hp]
      exact ⟨h1, h2, h3, h4⟩
    | some p =>
      by_cases hc : p.pc = ProbePc.sending ∧ s.main = MainPc.selecting
      · simp only [System.step, hp, if_pos hc]
        have hmem : p ∈ s.probes := List.getElem?_mem hp
        have hi : i < s.probes.length := by
          by_contra hcon
          rw [List.getElem?_eq_none (by omega)] at hp
          exact Option.noConfusion hp
        refine ⟨?_, ?_, ?_, ?_⟩
        · intro hm
          exact MainPc.noConfusion hm
        · intro _
          refine ⟨by simp [(h1 hc.2).1], { p with pc := ProbePc.returned, sent := true }, ?_, rfl⟩
          exact List.mem_set _ _ hi _
        · intro q hq
          rcases List.mem_or_eq_of_mem_set hq with hq | hq
          · exact h3 q hq
          · subst hq
            exact ⟨fun _ => (h3 p hmem).1 (Or.inl hc.1), fun _ => rfl⟩
        · intro hm
          rcases hm with hm | hm <;> exact MainPc.noConfusion hm
      · simp only [System.step, hp, if_neg hc]
        exact ⟨h1, h2, h3, h4⟩
  | stopTicker =>
    by_cases hc : s.main = MainPc.gotQuit
    · simp only [System.step, if_pos hc]
      have hne : s.main ≠ MainPc.selecting := by rw [hc]; exact fun h => MainPc.noConfusion h
      exact ⟨fun hm => MainPc.noConfusion hm, fun _ => h2 hne, h3, fun _ => rfl⟩
    · simp only [System.step, if_neg hc]
      exact ⟨h1, h2, h3, h4⟩
  | callTeaUI =>
    by_cases hc : s.main = MainPc.leftLoop
    · simp only [System.step, if_pos hc]
      have hne : s.main ≠ MainPc.selecting := by rw [hc]; exact fun h => MainPc.noConfusion h
      exact ⟨fun hm => MainPc.noConfusion hm, fun _ => h2 hne, h3, fun _ => h4 (Or.inl hc)⟩
    · simp only [System.step, if_neg hc]
      exact ⟨h1, h2, h3, h4⟩

theorem System.foldl_step_safe (events : List Event) (s : System) (h : s.Safe) :
    (events.foldl System.step s).Safe := by
  induction events generalizing s with
  | nil => exact h
  | cons e rest ih => exact ih _ (System.step_safe s e h)

/-- C9: `Ping` reaches its send on `quit` exactly when `client.Do` returned a response with
status 200 (not on a connection failure, not on another status); and after every schedule of
ticks, responses, hand-offs and steps of `main`, if `main` is past its `select` it has received
exactly one value from `quit`, sent by a goroutine that saw status 200, and if `main` is in
`TeaUI` the ticker is stopped. A schedule with a failed probe, a 503 and then a 200 does start
the UI; the same schedule without the 200 leaves `main` in its loop. -/
theorem C9_ui_after_success (events : List Event) :
    (∀ r, (Ping r).pc = ProbePc.sending ↔ r = Response.status 200)
    ∧ ((System.exec events).main ≠ MainPc.selecting →
        (System.exec events).received = 1
        ∧ ∃ p ∈ (System.exec events).probes,
            p.sent = true ∧ p.resp = some (Response.status 200))
    ∧ ((System.exec events).main = MainPc.inTeaUI → (System.exec events).tickerRunning = false)
    ∧ (System.exec [Event.tick, Event.response 0 Response.failed, Event.tick,
          Event.response 1 (Response.status 503), Event.tick,
          Event.response 2 (Response.status 200), Event.handoff 2, Event.stopTicker,
          Event.callTeaUI]).main = MainPc.inTeaUI
    ∧ (System.exec [Event.tick, Event.response 0 Response.failed, Event.tick,
          Event.response 1 (Response.status 503), Event.handoff 1, Event.handoff 0,
          Event.stopTicker, Event.callTeaUI]).main = MainPc.selecting := by
  have hsafe : (System.exec events).Safe :=
    System.foldl_step_safe events System.init System.init_safe
  obtain ⟨_, h2, h3, h4⟩ := hsafe
  refine ⟨Ping_sending_iff, ?_, fun hm => h4 (Or.inr hm), by decide, by decide⟩
  intro hm
  obtain ⟨hr, p, hp, hps⟩ := h2 hm
  exact ⟨hr, p, hp, hps, (h3 p hp).1 (Or.inr hps)⟩

/-! ## The Tab handler -/

theorem Update_up_down_keeps_cursor (env : Env) (ti : TextInput) (m : uimodel ti)
    (k : KeyType) (hk : k = KeyType.KeyUp ∨ k = KeyType.KeyDown)
    (h : 0 ≤ m.cursor ∧ m.cursor < (m.choices.length : Int)) :
    ∃ m1 c, Update env ti m (Msg.KeyMsg k) = Except.ok (m1, c)
      ∧ m1.choices = m.choices
      ∧ 0 ≤ m1.cursor ∧ m1.cursor < (m1.choices.length : Int) := by
  rcases hk with hk | hk
  · subst hk
    by_cases hc : m.cursor > 0
    · refine ⟨{ m with cursor := m.cursor - 1,
                       textInput := ti.Update m.textInput (Msg.KeyMsg KeyType.KeyUp) },
        Cmd.fromTextInput, by simp only [Update, if_pos hc], rfl, ?_, ?_⟩
      · show 0 ≤ m.cursor - 1
        omega
      · show m.cursor - 1 < (m.choices.length : Int)
        omega
    · exact ⟨{ m with textInput := ti.Update m.textInput (Msg.KeyMsg KeyType.KeyUp) },
        Cmd.fromTextInput, by simp only [Update, if_neg hc], rfl, h.1, h.2⟩
  · subst hk
    by_cases hc : m.cursor < (m.choices.length : Int) - 1
    · refine ⟨{ m with cursor := m.cursor + 1,
                       textInput := ti.Update m.textInput (Msg.KeyMsg KeyType.KeyDown) },
        Cmd.fromTextInput, by simp only [Update, if_pos hc], rfl, ?_, ?_⟩
      · show 0 ≤ m.cursor + 1
        omega
      · show m.cursor + 1 < (m.choices.length : Int)
        omega
    · exact ⟨{ m with textInput := ti.Update m.textInput (Msg.KeyMsg KeyType.KeyDown) },
        Cmd.fromTextInput, by simp only [Update, if_neg hc], rfl, h.1, h.2⟩

/-- C10 fails in the code: on the initial model, whose `choices` is empty, the Tab handler
evaluates `m.choices[m.cursor]` with cursor 0 and panics; and after Enter, Down, Down, Tab,
where the Tab replaces three choices by one and leaves the cursor at 2, the next Tab panics
too. -/
theorem C10_tab_index_out_of_range (env : Env) (ti : TextInput) :
    Update env ti (initialModel ti) (Msg.KeyMsg KeyType.KeyTab)
      = Except.error Fault.indexOutOfRange
    ∧ cursorAndChoices (runUpdates
          (demoEnv (fun q _ => if q = [] then some [ascii "a", ascii "b", ascii "c"]
            else some [ascii "c 2"]))
          plainInput (initialModel plainInput)
          [Msg.KeyMsg KeyType.KeyEnter, Msg.KeyMsg KeyType.KeyDown, Msg.KeyMsg KeyType.KeyDown,
            Msg.KeyMsg KeyType.KeyTab]) = some (2, [ascii "c 2"])
    ∧ faultOf (runUpdates
          (demoEnv (fun q _ => if q = [] then some [ascii "a", ascii "b", ascii "c"]
            else some [ascii "c 2"]))
          plainInput (initialModel plainInput)
          [Msg.KeyMsg KeyType.KeyEnter, Msg.KeyMsg KeyType.KeyDown, Msg.KeyMsg KeyType.KeyDown,
            Msg.KeyMsg KeyType.KeyTab, Msg.KeyMsg KeyType.KeyTab])
        = some Fault.indexOutOfRange := by
  refine ⟨?_, ?_, ?_⟩
  · simp [Update, initialModel, indexSlice]
  · decide
  · decide

end SearchPrompter
